import Mathlib

/-!
# gibbsSampler: a verification development of `main.go`

Shallow embedding of the four stages of the program:

* `generateDependentDistributions` (with `incrementOrCreateCount` and
  `countsToProbabilities`): the three conditional probability tables;
* `findLargestConnectedSubgraph`: the labelling pass, the choice of the largest
  label class, and the filter;
* `sample`: the categorical sampler;
* `generateChain`: the part of `main` after the input has been read.

Modelling conventions.

* A Go `map[string]V` is an association list `GoMap V` in which a key occurs at
  most once; `mapGet` is the lookup, `mapSet` the assignment `m[k] = v`.
* The quotient `float64(count) / float64(total)` of the estimator is the exact quotient
  in `ℚ`. The sampler is given over an arithmetic `Arith` (a zero, an addition and a
  comparison, with no law built in), which `float64` and its rounding operations
  instantiate: `sampleIn`, `cumulateIn`. The definitions `sample` and `cumulate` are
  its instance at the exact arithmetic of `ℚ` (`sample_eq_sampleIn`).
* Go's `int` counters are natural numbers (a count is bounded by the number of
  transactions read, far below `2^63`).
* The order in which `range` enumerates a map is not fixed by Go, so `sample` takes
  the enumeration as an argument, and the value of `rand.Float64()` as another.
* `log.Fatal` and run-time panics end the process; they are the `Fault` values of
  an `Except`.
-/

namespace GibbsSampler

/-! ## Data model -/

/-- The record `Transaction` of `main.go`: three opaque string fields. -/
structure Transaction where
  sender : String
  recipient : String
  amount : String
deriving DecidableEq, Repr

/-- A Go map with string keys, as an association list. -/
abbrev GoMap (V : Type) := List (String × V)

/-- The lookup `v, ok := m[k]`. -/
def mapGet {V : Type} : GoMap V → String → Option V
  | [], _ => none
  | (k', v) :: rest, k => if k' = k then some v else mapGet rest k

/-- The assignment `m[k] = v`: overwrite the entry of `k`, or add one. -/
def mapSet {V : Type} : GoMap V → String → V → GoMap V
  | [], k, v => [(k, v)]
  | (k', v') :: rest, k, v =>
    if k' = k then (k, v) :: rest else (k', v') :: mapSet rest k v

/-- The keys of a map, in storage order. -/
def mapKeys {V : Type} (m : GoMap V) : List String := m.map Prod.fst

/-- The ways a run of the program ends early. -/
inductive Fault where
  /-- The call `log.Fatal("Failed to sample")`: the process exits with status 1. -/
  | logFatal
  /-- The panic of `rand.Intn` on a bound that is not positive. -/
  | intnPanic
  /-- The panic of a slice index out of range. -/
  | indexOutOfRange
deriving DecidableEq, Repr

/-! ## Distribution estimator -/

/-- The key `strings.Join([]string{ keyStart, keyEnd }, "")`. -/
def outerKey (keyStart keyEnd : String) : String :=
  String.join [keyStart, keyEnd]

/-- The function `incrementOrCreateCount`; the updated outer map is returned. -/
def incrementOrCreateCount (keyStart keyEnd : String) (outerMap : GoMap (GoMap Nat))
    (innerKey : String) : GoMap (GoMap Nat) :=
  match mapGet outerMap (outerKey keyStart keyEnd) with
  | some innerMap =>
    match mapGet innerMap innerKey with
    | some count =>
      mapSet outerMap (outerKey keyStart keyEnd) (mapSet innerMap innerKey (count + 1))
    | none => mapSet outerMap (outerKey keyStart keyEnd) (mapSet innerMap innerKey 1)
  | none => mapSet outerMap (outerKey keyStart keyEnd) [(innerKey, 1)]

/-- The first inner loop of `countsToProbabilities`: `total += count`. -/
def innerTotal (innerMap : GoMap Nat) : Nat :=
  innerMap.foldl (fun total kc => total + kc.2) 0

/-- The second inner loop of `countsToProbabilities`, filling the fresh inner map. -/
def innerProbabilities (innerMap : GoMap Nat) : GoMap ℚ :=
  innerMap.foldl
    (fun probs kc => mapSet probs kc.1 ((kc.2 : ℚ) / (innerTotal innerMap : ℚ))) []

/-- The function `countsToProbabilities`. -/
def countsToProbabilities (countsMap : GoMap (GoMap Nat)) : GoMap (GoMap ℚ) :=
  countsMap.foldl
    (fun probabilitiesMap entry =>
      mapSet probabilitiesMap entry.1 (innerProbabilities entry.2)) []

/-- The three count tables of `generateDependentDistributions`. -/
structure CountTables where
  recipientCountGivenSenderAmount : GoMap (GoMap Nat)
  senderCountGivenRecipientAmount : GoMap (GoMap Nat)
  amountCountGivenSenderRecipient : GoMap (GoMap Nat)

/-- One iteration of the counting loop of `generateDependentDistributions`. -/
def countTransaction (c : CountTables) (t : Transaction) : CountTables :=
  if t.sender = "" ∨ t.recipient = "" ∨ t.amount = "" then c
  else
    { recipientCountGivenSenderAmount :=
        incrementOrCreateCount t.sender t.amount c.recipientCountGivenSenderAmount t.recipient
      senderCountGivenRecipientAmount :=
        incrementOrCreateCount t.recipient t.amount c.senderCountGivenRecipientAmount t.sender
      amountCountGivenSenderRecipient :=
        incrementOrCreateCount t.sender t.recipient c.amountCountGivenSenderRecipient t.amount }

/-- The counting loop of `generateDependentDistributions`. -/
def countAll (transactions : List Transaction) : CountTables :=
  transactions.foldl countTransaction ⟨[], [], []⟩

/-- The three probability tables returned by `generateDependentDistributions`. -/
structure Tables where
  recipientProbabilitiesGivenSenderAmount : GoMap (GoMap ℚ)
  senderProbabilitiesGivenRecipientAmount : GoMap (GoMap ℚ)
  amountProbabilitiesGivenSenderRecipient : GoMap (GoMap ℚ)

/-- The function `generateDependentDistributions`. -/
def generateDependentDistributions (transactions : List Transaction) : Tables :=
  let c := countAll transactions
  { recipientProbabilitiesGivenSenderAmount :=
      countsToProbabilities c.recipientCountGivenSenderAmount
    senderProbabilitiesGivenRecipientAmount :=
      countsToProbabilities c.senderCountGivenRecipientAmount
    amountProbabilitiesGivenSenderRecipient :=
      countsToProbabilities c.amountCountGivenSenderRecipient }

/-- The sum of the probabilities of the outcomes of one distribution. -/
def probabilitySum (dist : GoMap ℚ) : ℚ := (dist.map Prod.snd).sum

/-! ## Categorical sampler -/

/-- The read `m[k]` of a `map[string]float64`, zero for a missing key. -/
def probOf (m : GoMap ℚ) (k : String) : ℚ := (mapGet m k).getD 0

/-- The key array of `sample`: `make([]string, len(probabilities))` holds
`len(probabilities)` empty strings, and the enumerated keys are appended to it. -/
def sampleKeys (probabilities : GoMap ℚ) (order : List String) : List String :=
  List.replicate probabilities.length "" ++ order

/-- The first loop of `sample` in exact arithmetic: the map `cumProbabilities` and the
running `sum`. The loop over an arithmetic that may round is `cumulateIn`. -/
def cumulate (probabilities : GoMap ℚ) (keys : List String) : GoMap ℚ × ℚ :=
  keys.foldl
    (fun acc key =>
      (mapSet acc.1 key (acc.2 + probOf probabilities key), acc.2 + probOf probabilities key))
    ([], 0)

/-- The function `sample` in exact arithmetic, for the enumeration `order` of the keys
of `probabilities` and the value `random` of `rand.Float64()`. It is `sampleIn` at the
arithmetic of `ℚ`; `sampleIn` is the function over an arithmetic that may round. -/
def sample (probabilities : GoMap ℚ) (order : List String) (random : ℚ) :
    Except Fault String :=
  let keys := sampleKeys probabilities order
  let cumProbabilities := (cumulate probabilities keys).1
  match keys.find? (fun key => decide (random ≤ probOf cumProbabilities key)) with
  | some key => Except.ok key
  | none => Except.error Fault.logFatal

/-! ## Connected-component extractor -/

/-- The state of the labelling pass: the map `graphs` and the counter `nextGraph`. -/
structure Labelling where
  graphs : GoMap Nat
  nextGraph : Nat
deriving DecidableEq, Repr

/-- The read `graphs[a]`, zero for an address without a component id. -/
def graphOf (graphs : GoMap Nat) (a : String) : Nat := (mapGet graphs a).getD 0

/-- One iteration of the labelling loop of `findLargestConnectedSubgraph`. -/
def labelStep (st : Labelling) (t : Transaction) : Labelling :=
  if graphOf st.graphs t.sender ≠ 0 ∧ graphOf st.graphs t.recipient ≠ 0 then
    { st with graphs := mapSet st.graphs t.recipient (graphOf st.graphs t.sender) }
  else if graphOf st.graphs t.sender = 0 ∧ graphOf st.graphs t.recipient ≠ 0 then
    { st with graphs := mapSet st.graphs t.sender (graphOf st.graphs t.recipient) }
  else if graphOf st.graphs t.sender = 0 ∧ graphOf st.graphs t.recipient = 0 then
    { graphs := mapSet (mapSet st.graphs t.sender st.nextGraph) t.recipient st.nextGraph
      nextGraph := st.nextGraph + 1 }
  else st

/-- The labelling loop, from the empty map and the counter 1. -/
def labelAll (transactions : List Transaction) : Labelling :=
  transactions.foldl labelStep ⟨[], 1⟩

/-- The inner loop over `graphs` for the id `i`: the set `nodes` and `graphSize`. -/
def collectNodes (graphs : GoMap Nat) (i : Nat) : GoMap Bool × Nat :=
  graphs.foldl
    (fun acc entry => if entry.2 = i then (mapSet acc.1 entry.1 true, acc.2 + 1) else acc)
    ([], 0)

/-- The loop `for i := 1; i < nextGraph; i++`, keeping `largestGraphNodes` and
`largestGraphSize`. -/
def selectLargest (st : Labelling) : GoMap Bool × Nat :=
  (List.range' 1 (st.nextGraph - 1)).foldl
    (fun largest i =>
      if (collectNodes st.graphs i).2 > largest.2 then collectNodes st.graphs i else largest)
    ([], 0)

/-- The read `largestGraphNodes[a]`, false for a missing address. -/
def inNodes (nodes : GoMap Bool) (a : String) : Bool := (mapGet nodes a).getD false

/-- The function `findLargestConnectedSubgraph`. -/
def findLargestConnectedSubgraph (transactions : List Transaction) : List Transaction :=
  let largestGraphNodes := (selectLargest (labelAll transactions)).1
  transactions.filter
    (fun t => inNodes largestGraphNodes t.sender || inNodes largestGraphNodes t.recipient)

/-! ## Chain generator -/

/-- The random source of one run: the raw value behind the single `rand.Intn`, and
for the `i`-th call of `sample` the value of `rand.Float64()` and the order in
which `range` enumerates the keys of the map it is given. -/
structure RandSource where
  intRaw : Nat
  float64 : Nat → ℚ
  keyOrder : Nat → GoMap ℚ → List String

/-- The read `table[key]` of a table: the nil map for a missing key. -/
def distOf (table : GoMap (GoMap ℚ)) (key : String) : GoMap ℚ := (mapGet table key).getD []

/-- The call `sample(table[key])` that is the `i`-th of the run. -/
def sampleAt (rs : RandSource) (i : Nat) (table : GoMap (GoMap ℚ)) (key : String) :
    Except Fault String :=
  sample (distOf table key) (rs.keyOrder i (distOf table key)) (rs.float64 i)

/-- The body of the generation loop of `main` at counter `n`, except for the append:
the three calls of `sample` and the new transaction. -/
def chainStep (tables : Tables) (rs : RandSource) (n : Nat) (prev : Transaction) :
    Except Fault Transaction := do
  let sender ← sampleAt rs (3 * (n - 1)) tables.senderProbabilitiesGivenRecipientAmount
    (String.join [prev.recipient, prev.amount])
  let recipient ← sampleAt rs (3 * (n - 1) + 1) tables.recipientProbabilitiesGivenSenderAmount
    (String.join [sender, prev.amount])
  let amount ← sampleAt rs (3 * (n - 1) + 2) tables.amountProbabilitiesGivenSenderRecipient
    (String.join [sender, recipient])
  pure ⟨sender, recipient, amount⟩

/-- The loop `for n := 1; n < iterations; n++` of `main`, with `steps` iterations
left to run from the counter `n`. -/
def chainLoop (tables : Tables) (rs : RandSource) :
    Nat → Nat → List Transaction → Except Fault (List Transaction)
  | 0, _, sampledTransactions => Except.ok sampledTransactions
  | steps + 1, n, sampledTransactions =>
    match sampledTransactions[n - 1]? with
    | none => Except.error Fault.indexOutOfRange
    | some prev =>
      match chainStep tables rs n prev with
      | Except.error e => Except.error e
      | Except.ok newTransaction =>
        chainLoop tables rs steps (n + 1) (sampledTransactions ++ [newTransaction])

/-- The exclusive bound `len(transactions) - 1` that `main` passes to `rand.Intn`. -/
def seedBound (transactions : List Transaction) : Int := (transactions.length : Int) - 1

/-- The index `rand.Intn(len(transactions) - 1)` when the bound is positive. -/
def seedIndex (rs : RandSource) (transactions : List Transaction) : Nat :=
  rs.intRaw % (seedBound transactions).toNat

/-- The seed `subgraphTransactions[rand.Intn(len(transactions) - 1)]` of `main`. -/
def seedTransaction (rs : RandSource) (transactions : List Transaction) :
    Except Fault Transaction :=
  if seedBound transactions ≤ 0 then Except.error Fault.intnPanic
  else
    match (findLargestConnectedSubgraph transactions)[seedIndex rs transactions]? with
    | none => Except.error Fault.indexOutOfRange
    | some t => Except.ok t

/-- The part of `main` between the reading of the input and the printing of the
chain, for the chain length `iterations` (5000 in `main`). -/
def generateChain (iterations : Nat) (rs : RandSource) (transactions : List Transaction) :
    Except Fault (List Transaction) :=
  match seedTransaction rs transactions with
  | Except.error e => Except.error e
  | Except.ok seed =>
    chainLoop (generateDependentDistributions transactions) rs (iterations - 1) 1 [seed]

/-- The random source that answers `rand.Intn` from the raw value `raw`, every
`rand.Float64()` with `u`, and enumerates every map in storage order. -/
def constSource (raw : Nat) (u : ℚ) : RandSource := ⟨raw, fun _ => u, fun _ m => mapKeys m⟩

/-! ## Predicates used in the statements -/

/-- An inner count map is well formed: no key twice, at least one outcome, and every
count positive. -/
def InnerOK (inner : GoMap Nat) : Prop :=
  (mapKeys inner).Nodup ∧ inner ≠ [] ∧ ∀ kc ∈ inner, 0 < kc.2

/-- A count table is well formed: no key twice and every inner map well formed. -/
def CountsOK (m : GoMap (GoMap Nat)) : Prop :=
  (mapKeys m).Nodup ∧ ∀ e ∈ m, InnerOK e.2

/-- The three count tables are well formed. -/
def TablesOK (c : CountTables) : Prop :=
  CountsOK c.recipientCountGivenSenderAmount ∧ CountsOK c.senderCountGivenRecipientAmount ∧
    CountsOK c.amountCountGivenSenderRecipient

/-- A transaction is complete when none of its fields is empty: the negation of the
guard of the counting loop. -/
def Complete (t : Transaction) : Prop := ¬ (t.sender = "" ∨ t.recipient = "" ∨ t.amount = "")

instance (t : Transaction) : Decidable (Complete t) := by unfold Complete; infer_instance

/-- The counting loop seen on one table: the key is made of the fields `k₁` and `k₂`
and the outcome is the field `out`. -/
def countTable (k₁ k₂ out : Transaction → String) (transactions : List Transaction) :
    GoMap (GoMap Nat) → GoMap (GoMap Nat) :=
  fun m => transactions.foldl
    (fun m t => if t.sender = "" ∨ t.recipient = "" ∨ t.amount = "" then m
      else incrementOrCreateCount (k₁ t) (k₂ t) m (out t)) m

/-- The outcome `o` has been counted under the key `k` of the count table `m`. -/
def Counted (m : GoMap (GoMap Nat)) (k o : String) : Prop :=
  ∃ inner count, mapGet m k = some inner ∧ mapGet inner o = some count

/-- Every entry of the probability table `table` comes from an entry of the count table
`counts` under the same key: its distribution is the normalisation of that inner count
map, the normalising total is not zero, and its probabilities sum to exactly 1 (hence
within `1e-9` of 1). -/
def Normalised (counts : GoMap (GoMap Nat)) (table : GoMap (GoMap ℚ)) : Prop :=
  ∀ e ∈ table, ∃ inner, (e.1, inner) ∈ counts ∧ e.2 = innerProbabilities inner ∧
    innerTotal inner ≠ 0 ∧ probabilitySum e.2 = 1 ∧ |probabilitySum e.2 - 1| ≤ 1 / 10 ^ 9

/-- One of the three calls of `sample` in the body of the generation loop at counter
`n` ends in the fault `e` (the calls before it having returned). -/
def StepFails (tables : Tables) (rs : RandSource) (n : Nat) (prev : Transaction)
    (e : Fault) : Prop :=
  sampleAt rs (3 * (n - 1)) tables.senderProbabilitiesGivenRecipientAmount
      (outerKey prev.recipient prev.amount) = Except.error e ∨
  (∃ sender,
    sampleAt rs (3 * (n - 1)) tables.senderProbabilitiesGivenRecipientAmount
      (outerKey prev.recipient prev.amount) = Except.ok sender ∧
    sampleAt rs (3 * (n - 1) + 1) tables.recipientProbabilitiesGivenSenderAmount
      (outerKey sender prev.amount) = Except.error e) ∨
  (∃ sender recipient,
    sampleAt rs (3 * (n - 1)) tables.senderProbabilitiesGivenRecipientAmount
      (outerKey prev.recipient prev.amount) = Except.ok sender ∧
    sampleAt rs (3 * (n - 1) + 1) tables.recipientProbabilitiesGivenSenderAmount
      (outerKey sender prev.amount) = Except.ok recipient ∧
    sampleAt rs (3 * (n - 1) + 2) tables.amountProbabilitiesGivenSenderRecipient
      (outerKey sender recipient) = Except.error e)

/-- The invariant of the labelling pass: the counter is at least 1 and every component
id held by an address is positive and below the counter. -/
def LabelInv (st : Labelling) : Prop :=
  1 ≤ st.nextGraph ∧ ∀ e ∈ st.graphs, 0 < e.2 ∧ e.2 < st.nextGraph

/-- The count stored for the outcome `o` under the key `k` of a count table, zero when
the key or the outcome is absent. -/
def countOf (m : GoMap (GoMap Nat)) (k o : String) : Nat :=
  ((mapGet m k).bind (fun inner => mapGet inner o)).getD 0

/-- The normalising total of the key `k` of a count table, zero when the key is absent. -/
def totalOf (m : GoMap (GoMap Nat)) (k : String) : Nat :=
  ((mapGet m k).map innerTotal).getD 0

/-- The probability stored for the outcome `o` under the key `k` of a table, if any. -/
def tableProb (table : GoMap (GoMap ℚ)) (k o : String) : Option ℚ :=
  (mapGet table k).bind (fun dist => mapGet dist o)

/-- Reference definition: the number of complete transactions whose key, made of the
fields `k₁` and `k₂`, is `k`. -/
def refKeyCount (k₁ k₂ : Transaction → String) (transactions : List Transaction)
    (k : String) : Nat :=
  (transactions.filter (fun t => decide (Complete t ∧ outerKey (k₁ t) (k₂ t) = k))).length

/-- Reference definition: the number of complete transactions whose key is `k` and whose
outcome field `out` is `o`. -/
def refOutcomeCount (k₁ k₂ out : Transaction → String) (transactions : List Transaction)
    (k o : String) : Nat :=
  (transactions.filter
    (fun t => decide (Complete t ∧ outerKey (k₁ t) (k₂ t) = k ∧ out t = o))).length

/-- Reference definition of a table entry: no probability when no complete transaction
has the key `k` and the outcome `o`, and otherwise the number of those transactions
divided by the number of complete transactions with the key `k`. -/
def refProbability (k₁ k₂ out : Transaction → String) (transactions : List Transaction)
    (k o : String) : Option ℚ :=
  if refOutcomeCount k₁ k₂ out transactions k o = 0 then none
  else some ((refOutcomeCount k₁ k₂ out transactions k o : ℚ)
    / (refKeyCount k₁ k₂ transactions k : ℚ))

/-- The table `table` is the reference table of the dataset for the key fields `k₁`,
`k₂` and the outcome field `out`: same keys, same outcomes, same probabilities. -/
def RefinesReference (k₁ k₂ out : Transaction → String) (transactions : List Transaction)
    (table : GoMap (GoMap ℚ)) : Prop :=
  ∀ k o : String,
    ((mapGet table k).isSome ↔
      ∃ t ∈ transactions, Complete t ∧ outerKey (k₁ t) (k₂ t) = k) ∧
    ((tableProb table k o).isSome ↔
      ∃ t ∈ transactions, Complete t ∧ outerKey (k₁ t) (k₂ t) = k ∧ out t = o) ∧
    tableProb table k o = refProbability k₁ k₂ out transactions k o

/-- Two tables are the same map: they have the same keys and, under every key, the same
outcomes with the same probabilities. -/
def SameTable (table table' : GoMap (GoMap ℚ)) : Prop :=
  ∀ k o : String,
    ((mapGet table k).isSome ↔ (mapGet table' k).isSome) ∧
    tableProb table k o = tableProb table' k o

/-- The first loop of `sample` from the state `acc` of `cumProbabilities` and `sum`. -/
def cumFrom (probabilities : GoMap ℚ) (acc : GoMap ℚ × ℚ) (keys : List String) : GoMap ℚ × ℚ :=
  keys.foldl
    (fun acc key =>
      (mapSet acc.1 key (acc.2 + probOf probabilities key), acc.2 + probOf probabilities key))
    acc

/-- Reference definition: the first key of `keys`, in order, whose cumulative probability,
counted from `sum`, reaches the draw `random`. -/
def firstReaching (probabilities : GoMap ℚ) (random : ℚ) : List String → ℚ → Option String
  | [], _ => none
  | key :: rest, sum =>
    if random ≤ sum + probOf probabilities key then some key
    else firstReaching probabilities random rest (sum + probOf probabilities key)

/-- The end of `sample` after the search: the key found is returned, and `log.Fatal`
is called when there is none. -/
def sampleResult : Option String → Except Fault String
  | some key => Except.ok key
  | none => Except.error Fault.logFatal

/-- The random source whose draws are all 1/2 except the one of the call `i₀` of
`sample`, which is 0; `rand.Intn` is answered from the raw value 0 and every map is
enumerated in storage order. -/
def zeroAt (i₀ : Nat) : RandSource :=
  ⟨0, fun i => if i = i₀ then 0 else 1 / 2, fun _ m => mapKeys m⟩

/-- The number of addresses that hold the component id `i` in the map `graphs`. -/
def memberCount (graphs : GoMap Nat) (i : Nat) : Nat :=
  (graphs.filter (fun e => decide (e.2 = i))).length

/-- The loop over the ids `1, ..., n` of `findLargestConnectedSubgraph`. -/
def selectUpTo (st : Labelling) (n : Nat) : GoMap Bool × Nat :=
  (List.range' 1 n).foldl
    (fun largest i =>
      if (collectNodes st.graphs i).2 > largest.2 then collectNodes st.graphs i else largest)
    ([], 0)

/-- The id `w` wins in the labelling `st`: it is an id in `1 .. nextGraph - 1` that has a
member, no id in that range has more members, and every smaller id has fewer. -/
def IsWinner (st : Labelling) (w : Nat) : Prop :=
  1 ≤ w ∧ w < st.nextGraph ∧ 0 < memberCount st.graphs w ∧
  (∀ i, 1 ≤ i → i < st.nextGraph → memberCount st.graphs i ≤ memberCount st.graphs w) ∧
  (∀ i, 1 ≤ i → i < w → memberCount st.graphs i < memberCount st.graphs w)

/-- The arithmetic that `sample` uses on its numbers: the zero value `0.0`, the addition
`+` and the comparison `<=`. In `main.go` the numbers are `float64` and the operations
are the IEEE 754 ones, which round; no law is built in. -/
structure Arith (F : Type) where
  zero : F
  add : F → F → F
  le : F → F → Bool

/-- The exact arithmetic of the rationals. -/
def ratArith : Arith ℚ := ⟨0, fun a b => a + b, fun a b => decide (a ≤ b)⟩

/-- The read `m[k]` of a map of numbers, the zero value for a missing key. -/
def probOfIn {F : Type} (A : Arith F) (m : GoMap F) (k : String) : F :=
  (mapGet m k).getD A.zero

/-- The first loop of `sample` over the arithmetic `A`, from the state `acc` of
`cumProbabilities` and `sum`: `cumProbabilities[key] = sum + probabilities[key]` and
`sum += probabilities[key]`. -/
def cumFromIn {F : Type} (A : Arith F) (probabilities : GoMap F) (acc : GoMap F × F)
    (keys : List String) : GoMap F × F :=
  keys.foldl
    (fun acc key =>
      (mapSet acc.1 key (A.add acc.2 (probOfIn A probabilities key)),
        A.add acc.2 (probOfIn A probabilities key)))
    acc

/-- The first loop of `sample` over the arithmetic `A`, from the empty map and the sum
`0.0`. -/
def cumulateIn {F : Type} (A : Arith F) (probabilities : GoMap F) (keys : List String) :
    GoMap F × F :=
  cumFromIn A probabilities ([], A.zero) keys

/-- The key array of `sample` for a map of numbers of any kind: `len(probabilities)`
empty strings, then the enumerated keys. -/
def sampleKeysIn {F : Type} (probabilities : GoMap F) (order : List String) : List String :=
  List.replicate probabilities.length "" ++ order

/-- The function `sample` over the arithmetic `A`, for the enumeration `order` of the
keys of `probabilities` and the value `random` of `rand.Float64()`: the first key of the
key array with `random <= cumProbabilities[key]` is returned, and `log.Fatal` is called
when there is none. -/
def sampleIn {F : Type} (A : Arith F) (probabilities : GoMap F) (order : List String)
    (random : F) : Except Fault String :=
  let keys := sampleKeysIn probabilities order
  let cumProbabilities := (cumulateIn A probabilities keys).1
  match keys.find? (fun key => A.le random (probOfIn A cumProbabilities key)) with
  | some key => Except.ok key
  | none => Except.error Fault.logFatal

/-- Reference definition over the arithmetic `A`: the first key of `keys`, in order,
whose cumulative probability, the running sum that starts from `sum` and is computed
with the addition of `A`, reaches the draw `random`. -/
def firstReachingIn {F : Type} (A : Arith F) (probabilities : GoMap F) (random : F) :
    List String → F → Option String
  | [], _ => none
  | key :: rest, sum =>
    if A.le random (A.add sum (probOfIn A probabilities key)) = true then some key
    else firstReachingIn A probabilities random rest (A.add sum (probOfIn A probabilities key))

/-! # Theorems -/

/-! ## Association lists -/

theorem mapGet_mapSet_self {V : Type} (m : GoMap V) (k : String) (v : V) :
    mapGet (mapSet m k v) k = some v := by
  induction m with
  | nil => simp [mapSet, mapGet]
  | cons e rest ih =>
    obtain ⟨k', v'⟩ := e
    by_cases h : k' = k
    · simp [mapSet, mapGet, h]
    · simp [mapSet, mapGet, h, ih]

theorem mapGet_mapSet_ne {V : Type} (m : GoMap V) (k k' : String) (v : V) (h : k' ≠ k) :
    mapGet (mapSet m k v) k' = mapGet m k' := by
  induction m with
  | nil => simp [mapSet, mapGet, Ne.symm h]
  | cons e rest ih =>
    obtain ⟨k₀, v₀⟩ := e
    by_cases h₀ : k₀ = k
    · subst h₀
      simp [mapSet, mapGet, Ne.symm h]
    · by_cases h₁ : k₀ = k'
      · subst h₁
        simp [mapSet, mapGet, h₀]
      · simp [mapSet, mapGet, h₀, h₁, ih]

theorem mapGet_eq_none_iff {V : Type} (m : GoMap V) (k : String) :
    mapGet m k = none ↔ k ∉ mapKeys m := by
  induction m with
  | nil => simp [mapGet, mapKeys]
  | cons e rest ih =>
    obtain ⟨k', v'⟩ := e
    by_cases h : k' = k
    · simp [mapGet, mapKeys, h]
    · simp only [mapKeys] at ih
      simp [mapGet, mapKeys, h, ih, Ne.symm h]

theorem mem_of_mapGet {V : Type} (m : GoMap V) (k : String) (v : V)
    (h : mapGet m k = some v) : (k, v) ∈ m := by
  induction m with
  | nil => simp [mapGet] at h
  | cons e rest ih =>
    obtain ⟨k', v'⟩ := e
    by_cases hk : k' = k
    · simp [mapGet, hk] at h
      simp [hk, h]
    · simp [mapGet, hk] at h
      exact List.mem_cons_of_mem _ (ih h)

theorem mapGet_of_mem {V : Type} (m : GoMap V) (k : String) (v : V)
    (hnd : (mapKeys m).Nodup) (h : (k, v) ∈ m) : mapGet m k = some v := by
  induction m with
  | nil => simp at h
  | cons e rest ih =>
    obtain ⟨k', v'⟩ := e
    simp only [mapKeys, List.map_cons, List.nodup_cons] at hnd
    rcases List.mem_cons.1 h with heq | hmem
    · cases heq
      simp [mapGet]
    · have hne : k' ≠ k := by
        rintro rfl
        exact hnd.1 (List.mem_map.2 ⟨(k', v), hmem, rfl⟩)
      simp [mapGet, hne, ih hnd.2 hmem]

theorem mapSet_of_not_mem {V : Type} (m : GoMap V) (k : String) (v : V)
    (h : k ∉ mapKeys m) : mapSet m k v = m ++ [(k, v)] := by
  induction m with
  | nil => rfl
  | cons e rest ih =>
    obtain ⟨k', v'⟩ := e
    simp only [mapKeys, List.map_cons, List.mem_cons, not_or] at h
    have hne : k' ≠ k := fun h' => h.1 h'.symm
    simp [mapSet, hne, ih h.2]

theorem mapKeys_mapSet_of_mem {V : Type} (m : GoMap V) (k : String) (v : V)
    (h : k ∈ mapKeys m) : mapKeys (mapSet m k v) = mapKeys m := by
  induction m with
  | nil => simp [mapKeys] at h
  | cons e rest ih =>
    obtain ⟨k', v'⟩ := e
    by_cases hk : k' = k
    · simp [mapSet, mapKeys, hk]
    · simp only [mapKeys, List.map_cons, List.mem_cons] at h
      have hmem : k ∈ mapKeys rest := by
        rcases h with h | h
        · exact absurd h.symm hk
        · exact h
      have := ih hmem
      simp only [mapKeys] at this
      simp [mapSet, mapKeys, hk, this]

theorem nodup_mapKeys_mapSet {V : Type} (m : GoMap V) (k : String) (v : V)
    (hnd : (mapKeys m).Nodup) : (mapKeys (mapSet m k v)).Nodup := by
  by_cases h : k ∈ mapKeys m
  · rw [mapKeys_mapSet_of_mem m k v h]
    exact hnd
  · rw [mapSet_of_not_mem m k v h]
    simp only [mapKeys, List.map_append, List.map_cons, List.map_nil]
    rw [List.nodup_append]
    refine ⟨hnd, by simp, ?_⟩
    intro a ha hb
    simp at hb
    subst hb
    exact h ha

theorem mem_mapSet {V : Type} (m : GoMap V) (k : String) (v : V) (e : String × V)
    (h : e ∈ mapSet m k v) : e = (k, v) ∨ e ∈ m := by
  induction m with
  | nil =>
    simp [mapSet] at h
    exact Or.inl h
  | cons e' rest ih =>
    obtain ⟨k', v'⟩ := e'
    by_cases hk : k' = k
    · simp only [mapSet, hk, if_true, List.mem_cons] at h
      rcases h with h | h
      · exact Or.inl h
      · exact Or.inr (List.mem_cons_of_mem _ h)
    · simp only [mapSet, hk, if_false, List.mem_cons] at h
      rcases h with h | h
      · subst h
        exact Or.inr (List.mem_cons_self _ _)
      · rcases ih h with h' | h'
        · exact Or.inl h'
        · exact Or.inr (List.mem_cons_of_mem _ h')

theorem mapSet_ne_nil {V : Type} (m : GoMap V) (k : String) (v : V) : mapSet m k v ≠ [] := by
  cases m with
  | nil => simp [mapSet]
  | cons e rest =>
    obtain ⟨k', v'⟩ := e
    by_cases hk : k' = k <;> simp [mapSet, hk]

theorem foldl_mapSet_eq {A B : Type} (f : String × A → B) (l : List (String × A)) :
    ∀ acc : GoMap B, (mapKeys l).Nodup → (∀ k ∈ mapKeys l, k ∉ mapKeys acc) →
      l.foldl (fun acc e => mapSet acc e.1 (f e)) acc = acc ++ l.map (fun e => (e.1, f e)) := by
  induction l with
  | nil => intro acc _ _; simp
  | cons e rest ih =>
    intro acc hnd hdisj
    simp only [mapKeys, List.map_cons, List.nodup_cons] at hnd
    have he : e.1 ∉ mapKeys acc := hdisj e.1 (by simp [mapKeys])
    rw [List.foldl_cons, mapSet_of_not_mem acc e.1 (f e) he, ih _ hnd.2]
    · simp
    · intro k hk
      simp only [mapKeys, List.map_append, List.map_cons, List.map_nil, List.mem_append,
        List.mem_singleton, not_or]
      refine ⟨hdisj k (by simp only [mapKeys, List.map_cons]; exact List.mem_cons_of_mem _ hk), ?_⟩
      rintro rfl
      exact hnd.1 hk

/-! ## The count tables are well formed -/

theorem innerOK_mapSet (inner : GoMap Nat) (k : String) (c : Nat) (hc : 0 < c)
    (h : InnerOK inner) : InnerOK (mapSet inner k c) := by
  refine ⟨nodup_mapKeys_mapSet inner k c h.1, mapSet_ne_nil inner k c, ?_⟩
  intro kc hkc
  rcases mem_mapSet inner k c kc hkc with heq | hmem
  · rw [heq]; exact hc
  · exact h.2.2 kc hmem

theorem innerOK_singleton (k : String) : InnerOK [(k, 1)] := by
  refine ⟨by simp [mapKeys], by simp, ?_⟩
  intro kc hkc
  simp at hkc
  rw [hkc]
  exact Nat.one_pos

theorem countsOK_mapSet (m : GoMap (GoMap Nat)) (k : String) (inner : GoMap Nat)
    (hm : CountsOK m) (hi : InnerOK inner) : CountsOK (mapSet m k inner) := by
  refine ⟨nodup_mapKeys_mapSet m k inner hm.1, ?_⟩
  intro e he
  rcases mem_mapSet m k inner e he with heq | hmem
  · rw [heq]; exact hi
  · exact hm.2 e hmem

theorem countsOK_incrementOrCreateCount (keyStart keyEnd innerKey : String)
    (m : GoMap (GoMap Nat)) (hm : CountsOK m) :
    CountsOK (incrementOrCreateCount keyStart keyEnd m innerKey) := by
  unfold incrementOrCreateCount
  cases hget : mapGet m (outerKey keyStart keyEnd) with
  | none => exact countsOK_mapSet m _ _ hm (innerOK_singleton innerKey)
  | some inner =>
    have hin : InnerOK inner := hm.2 _ (mem_of_mapGet m _ inner hget)
    simp only
    cases hget' : mapGet inner innerKey with
    | none => exact countsOK_mapSet m _ _ hm (innerOK_mapSet inner innerKey 1 Nat.one_pos hin)
    | some count =>
      exact countsOK_mapSet m _ _ hm (innerOK_mapSet inner innerKey (count + 1) (Nat.succ_pos _) hin)

theorem tablesOK_countTransaction (c : CountTables) (t : Transaction) (h : TablesOK c) :
    TablesOK (countTransaction c t) := by
  unfold countTransaction
  split
  · exact h
  · exact ⟨countsOK_incrementOrCreateCount _ _ _ _ h.1,
      countsOK_incrementOrCreateCount _ _ _ _ h.2.1,
      countsOK_incrementOrCreateCount _ _ _ _ h.2.2⟩

theorem tablesOK_foldl (transactions : List Transaction) :
    ∀ c : CountTables, TablesOK c → TablesOK (transactions.foldl countTransaction c) := by
  induction transactions with
  | nil => intro c h; exact h
  | cons t rest ih => intro c h; exact ih _ (tablesOK_countTransaction c t h)

theorem tablesOK_countAll (transactions : List Transaction) : TablesOK (countAll transactions) :=
  tablesOK_foldl transactions _
    ⟨⟨List.nodup_nil, by simp⟩, ⟨List.nodup_nil, by simp⟩, ⟨List.nodup_nil, by simp⟩⟩

/-! ## Normalisation -/

theorem foldl_total (l : GoMap Nat) :
    ∀ a : Nat, l.foldl (fun total kc => total + kc.2) a = a + (l.map Prod.snd).sum := by
  induction l with
  | nil => intro a; simp
  | cons e rest ih => intro a; simp [ih, Nat.add_assoc]

theorem innerTotal_eq (inner : GoMap Nat) : innerTotal inner = (inner.map Prod.snd).sum := by
  simp [innerTotal, foldl_total]

theorem innerTotal_pos (inner : GoMap Nat) (h : InnerOK inner) : 0 < innerTotal inner := by
  rw [innerTotal_eq]
  obtain ⟨_, hne, hpos⟩ := h
  cases inner with
  | nil => exact absurd rfl hne
  | cons e rest =>
    have := hpos e (List.mem_cons_self _ _)
    simp only [List.map_cons, List.sum_cons]
    omega

theorem innerProbabilities_eq (inner : GoMap Nat) (h : (mapKeys inner).Nodup) :
    innerProbabilities inner =
      inner.map (fun kc => (kc.1, (kc.2 : ℚ) / (innerTotal inner : ℚ))) := by
  unfold innerProbabilities
  rw [foldl_mapSet_eq (fun kc : String × Nat => (kc.2 : ℚ) / (innerTotal inner : ℚ)) inner [] h
    (by simp [mapKeys])]
  simp

theorem countsToProbabilities_eq (m : GoMap (GoMap Nat)) (h : (mapKeys m).Nodup) :
    countsToProbabilities m = m.map (fun e => (e.1, innerProbabilities e.2)) := by
  unfold countsToProbabilities
  rw [foldl_mapSet_eq (fun e => innerProbabilities e.2) m [] h (by simp [mapKeys])]
  simp

theorem sum_map_div (l : GoMap Nat) (T : ℚ) :
    ((l.map (fun kc => (kc.1, (kc.2 : ℚ) / T))).map Prod.snd).sum
      = (((l.map Prod.snd).sum : Nat) : ℚ) / T := by
  induction l with
  | nil => simp
  | cons e rest ih =>
    simp only [List.map_cons, List.sum_cons, ih]
    push_cast
    ring

theorem probabilitySum_innerProbabilities (inner : GoMap Nat) (h : InnerOK inner) :
    probabilitySum (innerProbabilities inner) = 1 := by
  have hpos := innerTotal_pos inner h
  unfold probabilitySum
  rw [innerProbabilities_eq inner h.1, sum_map_div, ← innerTotal_eq]
  have : (innerTotal inner : ℚ) ≠ 0 := by exact_mod_cast (Nat.pos_iff_ne_zero.1 hpos)
  exact div_self this

theorem normalised_of_countsOK (m : GoMap (GoMap Nat)) (hm : CountsOK m) :
    ∀ e ∈ countsToProbabilities m, probabilitySum e.2 = 1 := by
  intro e he
  rw [countsToProbabilities_eq m hm.1] at he
  obtain ⟨e', he', rfl⟩ := List.mem_map.1 he
  exact probabilitySum_innerProbabilities e'.2 (hm.2 e' he')

/-! ## One count table at a time -/

theorem foldl_countTransaction_proj (transactions : List Transaction) :
    ∀ c : CountTables,
      (transactions.foldl countTransaction c).recipientCountGivenSenderAmount
          = countTable Transaction.sender Transaction.amount Transaction.recipient transactions
              c.recipientCountGivenSenderAmount ∧
      (transactions.foldl countTransaction c).senderCountGivenRecipientAmount
          = countTable Transaction.recipient Transaction.amount Transaction.sender transactions
              c.senderCountGivenRecipientAmount ∧
      (transactions.foldl countTransaction c).amountCountGivenSenderRecipient
          = countTable Transaction.sender Transaction.recipient Transaction.amount transactions
              c.amountCountGivenSenderRecipient := by
  induction transactions with
  | nil => intro c; exact ⟨rfl, rfl, rfl⟩
  | cons t rest ih =>
    intro c
    have h := ih (countTransaction c t)
    simp only [List.foldl_cons, countTable] at h ⊢
    by_cases hc : t.sender = "" ∨ t.recipient = "" ∨ t.amount = ""
    · simp only [countTransaction, hc, if_true] at h ⊢
      exact h
    · simp only [countTransaction, hc, if_false] at h ⊢
      exact h

theorem counted_mapSet_self (m : GoMap (GoMap Nat)) (k o : String) (inner : GoMap Nat)
    (count : Nat) : Counted (mapSet m k (mapSet inner o count)) k o :=
  ⟨_, count, mapGet_mapSet_self m k _, mapGet_mapSet_self inner o count⟩

theorem counted_incrementOrCreateCount_self (keyStart keyEnd innerKey : String)
    (m : GoMap (GoMap Nat)) :
    Counted (incrementOrCreateCount keyStart keyEnd m innerKey)
      (outerKey keyStart keyEnd) innerKey := by
  unfold incrementOrCreateCount
  cases mapGet m (outerKey keyStart keyEnd) with
  | none => exact ⟨_, 1, mapGet_mapSet_self m _ _, by simp [mapGet]⟩
  | some inner =>
    simp only
    cases mapGet inner innerKey with
    | none => exact counted_mapSet_self m _ _ inner 1
    | some count => exact counted_mapSet_self m _ _ inner (count + 1)

theorem counted_mapSet_inner (m : GoMap (GoMap Nat)) (k₀ o₀ : String) (inner₀ : GoMap Nat)
    (c₀ : Nat) (h₀ : mapGet m k₀ = some inner₀) (k o : String) (h : Counted m k o) :
    Counted (mapSet m k₀ (mapSet inner₀ o₀ c₀)) k o := by
  obtain ⟨inner, count, hi, hc⟩ := h
  by_cases hk : k = k₀
  · subst hk
    rw [h₀] at hi
    cases hi
    by_cases ho : o = o₀
    · subst ho
      exact counted_mapSet_self m k o inner₀ c₀
    · exact ⟨_, count, mapGet_mapSet_self m k _, by rw [mapGet_mapSet_ne _ _ _ _ ho]; exact hc⟩
  · exact ⟨inner, count, by rw [mapGet_mapSet_ne _ _ _ _ hk]; exact hi, hc⟩

theorem counted_incrementOrCreateCount_mono (keyStart keyEnd innerKey : String)
    (m : GoMap (GoMap Nat)) (k o : String) (h : Counted m k o) :
    Counted (incrementOrCreateCount keyStart keyEnd m innerKey) k o := by
  unfold incrementOrCreateCount
  cases hget : mapGet m (outerKey keyStart keyEnd) with
  | none =>
    obtain ⟨inner, count, hi, hc⟩ := h
    have hk : k ≠ outerKey keyStart keyEnd := by
      rintro rfl
      rw [hget] at hi
      cases hi
    exact ⟨inner, count, by rw [mapGet_mapSet_ne _ _ _ _ hk]; exact hi, hc⟩
  | some inner₀ =>
    simp only
    cases mapGet inner₀ innerKey with
    | none => exact counted_mapSet_inner m _ _ inner₀ 1 hget k o h
    | some count => exact counted_mapSet_inner m _ _ inner₀ (count + 1) hget k o h

theorem counted_countTable_mono (k₁ k₂ out : Transaction → String)
    (transactions : List Transaction) (k o : String) :
    ∀ m, Counted m k o → Counted (countTable k₁ k₂ out transactions m) k o := by
  induction transactions with
  | nil => intro m h; exact h
  | cons t rest ih =>
    intro m h
    simp only [countTable, List.foldl_cons]
    apply ih
    split
    · exact h
    · exact counted_incrementOrCreateCount_mono _ _ _ m k o h

theorem counted_countTable_of_mem (k₁ k₂ out : Transaction → String)
    (transactions : List Transaction) (t : Transaction) (ht : t ∈ transactions)
    (hc : Complete t) :
    ∀ m, Counted (countTable k₁ k₂ out transactions m) (outerKey (k₁ t) (k₂ t)) (out t) := by
  induction transactions with
  | nil => simp at ht
  | cons t' rest ih =>
    intro m
    rcases List.mem_cons.1 ht with heq | hmem
    · subst heq
      have hc' : ¬ (t.sender = "" ∨ t.recipient = "" ∨ t.amount = "") := hc
      simp only [countTable, List.foldl_cons, hc', if_false]
      exact counted_countTable_mono k₁ k₂ out rest _ _ _
        (counted_incrementOrCreateCount_self _ _ _ m)
    · simp only [countTable, List.foldl_cons]
      exact ih hmem _

theorem countsOK_countTable (k₁ k₂ out : Transaction → String)
    (transactions : List Transaction) :
    ∀ m, CountsOK m → CountsOK (countTable k₁ k₂ out transactions m) := by
  induction transactions with
  | nil => intro m h; exact h
  | cons t rest ih =>
    intro m h
    simp only [countTable, List.foldl_cons]
    apply ih
    split
    · exact h
    · exact countsOK_incrementOrCreateCount _ _ _ m h

theorem countsOK_nil : CountsOK [] := ⟨List.nodup_nil, by simp⟩

theorem mapGet_map {A B : Type} (f : A → B) (m : GoMap A) (k : String) :
    mapGet (m.map (fun e => (e.1, f e.2))) k = (mapGet m k).map f := by
  induction m with
  | nil => simp [mapGet]
  | cons e rest ih =>
    obtain ⟨k', v'⟩ := e
    by_cases hk : k' = k <;> simp [mapGet, hk, ih]

theorem mapGet_countsToProbabilities (m : GoMap (GoMap Nat)) (h : CountsOK m) (k : String) :
    mapGet (countsToProbabilities m) k = (mapGet m k).map innerProbabilities := by
  rw [countsToProbabilities_eq m h.1]
  exact mapGet_map innerProbabilities m k

theorem mapGet_innerProbabilities (inner : GoMap Nat) (h : (mapKeys inner).Nodup) (o : String) :
    mapGet (innerProbabilities inner) o
      = (mapGet inner o).map (fun count : Nat => (count : ℚ) / (innerTotal inner : ℚ)) := by
  rw [innerProbabilities_eq inner h]
  exact mapGet_map (fun count : Nat => (count : ℚ) / (innerTotal inner : ℚ)) inner o

/-- An outcome counted under a key of a well-formed count table has a positive
probability in the distribution stored under that key of the probability table. -/
theorem probOf_pos_of_counted (m : GoMap (GoMap Nat)) (hm : CountsOK m) (k o : String)
    (h : Counted m k o) : 0 < probOf (distOf (countsToProbabilities m) k) o := by
  obtain ⟨inner, count, hi, hc⟩ := h
  have hin : InnerOK inner := hm.2 _ (mem_of_mapGet m k inner hi)
  have hcount : 0 < count := hin.2.2 _ (mem_of_mapGet inner o count hc)
  have htot := innerTotal_pos inner hin
  simp only [probOf, distOf, mapGet_countsToProbabilities m hm, hi, Option.map_some',
    Option.getD_some, mapGet_innerProbabilities inner hin.1, hc]
  have h1 : (0 : ℚ) < count := by exact_mod_cast hcount
  have h2 : (0 : ℚ) < innerTotal inner := by exact_mod_cast htot
  exact div_pos h1 h2

theorem normalised_countsToProbabilities (m : GoMap (GoMap Nat)) (hm : CountsOK m) :
    Normalised m (countsToProbabilities m) := by
  intro e he
  rw [countsToProbabilities_eq m hm.1] at he
  obtain ⟨e', he', rfl⟩ := List.mem_map.1 he
  have hin : InnerOK e'.2 := hm.2 e' he'
  have hsum := probabilitySum_innerProbabilities e'.2 hin
  refine ⟨e'.2, he', rfl, Nat.pos_iff_ne_zero.1 (innerTotal_pos e'.2 hin), hsum, ?_⟩
  simp only [hsum, sub_self, abs_zero]
  positivity

theorem outerKey_eq (a b : String) : outerKey a b = a ++ b := by
  simp [outerKey, String.join]

theorem append_inj_of_length (a b c d : String) (hl : a.length = c.length)
    (h : a ++ b = c ++ d) : a = c ∧ b = d := by
  have hd : a.data ++ b.data = c.data ++ d.data := by
    rw [← String.data_append, ← String.data_append, h]
  have := List.append_inj hd hl
  exact ⟨String.ext this.1, String.ext this.2⟩

theorem countAll_proj (transactions : List Transaction) :
    (countAll transactions).recipientCountGivenSenderAmount
        = countTable Transaction.sender Transaction.amount Transaction.recipient transactions [] ∧
    (countAll transactions).senderCountGivenRecipientAmount
        = countTable Transaction.recipient Transaction.amount Transaction.sender transactions [] ∧
    (countAll transactions).amountCountGivenSenderRecipient
        = countTable Transaction.sender Transaction.recipient Transaction.amount transactions [] :=
  foldl_countTransaction_proj transactions ⟨[], [], []⟩

/-- A complete transaction of the dataset has, in the probability table built from the
fields `k₁`, `k₂` and `out`, a positive probability for its outcome under its key. -/
theorem probOf_pos_countTable (k₁ k₂ out : Transaction → String)
    (transactions : List Transaction) (t : Transaction) (ht : t ∈ transactions)
    (hc : Complete t) :
    0 < probOf (distOf (countsToProbabilities (countTable k₁ k₂ out transactions []))
      (outerKey (k₁ t) (k₂ t))) (out t) :=
  probOf_pos_of_counted _ (countsOK_countTable k₁ k₂ out transactions [] countsOK_nil) _ _
    (counted_countTable_of_mem k₁ k₂ out transactions t ht hc [])

/-! ## The sampler -/

theorem sample_eq_fatal_of_find (probabilities : GoMap ℚ) (order : List String) (random : ℚ)
    (h : ∀ key ∈ sampleKeys probabilities order,
      ¬ random ≤ probOf (cumulate probabilities (sampleKeys probabilities order)).1 key) :
    sample probabilities order random = Except.error Fault.logFatal := by
  have hfind : (sampleKeys probabilities order).find?
      (fun key => decide (random ≤
        probOf (cumulate probabilities (sampleKeys probabilities order)).1 key)) = none := by
    rw [List.find?_eq_none]
    intro key hkey
    simpa using h key hkey
  simp only [sample, hfind]

theorem sample_nil (random : ℚ) : sample [] [] random = Except.error Fault.logFatal :=
  sample_eq_fatal_of_find [] [] random (by simp [sampleKeys])

theorem chainStep_error_sender (tables : Tables) (rs : RandSource) (n : Nat)
    (prev : Transaction) (e : Fault)
    (h : sampleAt rs (3 * (n - 1)) tables.senderProbabilitiesGivenRecipientAmount
      (outerKey prev.recipient prev.amount) = Except.error e) :
    chainStep tables rs n prev = Except.error e := by
  unfold chainStep
  unfold outerKey at h
  rw [h]
  rfl

theorem chainStep_error_recipient (tables : Tables) (rs : RandSource) (n : Nat)
    (prev : Transaction) (sender : String) (e : Fault)
    (hs : sampleAt rs (3 * (n - 1)) tables.senderProbabilitiesGivenRecipientAmount
      (outerKey prev.recipient prev.amount) = Except.ok sender)
    (h : sampleAt rs (3 * (n - 1) + 1) tables.recipientProbabilitiesGivenSenderAmount
      (outerKey sender prev.amount) = Except.error e) :
    chainStep tables rs n prev = Except.error e := by
  unfold chainStep
  unfold outerKey at h hs
  rw [hs]
  show (sampleAt rs (3 * (n - 1) + 1) tables.recipientProbabilitiesGivenSenderAmount
      (String.join [sender, prev.amount]) >>= _) = _
  rw [h]
  rfl

theorem chainStep_error_amount (tables : Tables) (rs : RandSource) (n : Nat)
    (prev : Transaction) (sender recipient : String) (e : Fault)
    (hs : sampleAt rs (3 * (n - 1)) tables.senderProbabilitiesGivenRecipientAmount
      (outerKey prev.recipient prev.amount) = Except.ok sender)
    (hr : sampleAt rs (3 * (n - 1) + 1) tables.recipientProbabilitiesGivenSenderAmount
      (outerKey sender prev.amount) = Except.ok recipient)
    (h : sampleAt rs (3 * (n - 1) + 2) tables.amountProbabilitiesGivenSenderRecipient
      (outerKey sender recipient) = Except.error e) :
    chainStep tables rs n prev = Except.error e := by
  unfold chainStep
  unfold outerKey at h hs hr
  rw [hs]
  show (sampleAt rs (3 * (n - 1) + 1) tables.recipientProbabilitiesGivenSenderAmount
      (String.join [sender, prev.amount]) >>= _) = _
  rw [hr]
  show (sampleAt rs (3 * (n - 1) + 2) tables.amountProbabilitiesGivenSenderRecipient
      (String.join [sender, recipient]) >>= _) = _
  rw [h]
  rfl

/-- The three calls of `sample` behind a step that returns. -/
theorem chainStep_ok (tables : Tables) (rs : RandSource) (n : Nat) (prev t : Transaction)
    (h : chainStep tables rs n prev = Except.ok t) :
    sampleAt rs (3 * (n - 1)) tables.senderProbabilitiesGivenRecipientAmount
        (outerKey prev.recipient prev.amount) = Except.ok t.sender ∧
    sampleAt rs (3 * (n - 1) + 1) tables.recipientProbabilitiesGivenSenderAmount
        (outerKey t.sender prev.amount) = Except.ok t.recipient ∧
    sampleAt rs (3 * (n - 1) + 2) tables.amountProbabilitiesGivenSenderRecipient
        (outerKey t.sender t.recipient) = Except.ok t.amount := by
  cases hs : sampleAt rs (3 * (n - 1)) tables.senderProbabilitiesGivenRecipientAmount
      (outerKey prev.recipient prev.amount) with
  | error e => rw [chainStep_error_sender tables rs n prev e hs] at h; cases h
  | ok sender =>
    cases hr : sampleAt rs (3 * (n - 1) + 1) tables.recipientProbabilitiesGivenSenderAmount
        (outerKey sender prev.amount) with
    | error e => rw [chainStep_error_recipient tables rs n prev sender e hs hr] at h; cases h
    | ok recipient =>
      cases ha : sampleAt rs (3 * (n - 1) + 2) tables.amountProbabilitiesGivenSenderRecipient
          (outerKey sender recipient) with
      | error e =>
        rw [chainStep_error_amount tables rs n prev sender recipient e hs hr ha] at h; cases h
      | ok amount =>
        have hstep : chainStep tables rs n prev = Except.ok ⟨sender, recipient, amount⟩ := by
          unfold chainStep
          unfold outerKey at hs hr ha
          rw [hs]
          show (sampleAt rs (3 * (n - 1) + 1) tables.recipientProbabilitiesGivenSenderAmount
            (String.join [sender, prev.amount]) >>= _) = _
          rw [hr]
          show (sampleAt rs (3 * (n - 1) + 2) tables.amountProbabilitiesGivenSenderRecipient
            (String.join [sender, recipient]) >>= _) = _
          rw [ha]
          rfl
        rw [hstep] at h
        cases h
        exact ⟨rfl, hr, ha⟩

theorem chainLoop_error (tables : Tables) (rs : RandSource) (steps n : Nat)
    (chain : List Transaction) (prev : Transaction) (e : Fault)
    (hprev : chain[n - 1]? = some prev) (h : chainStep tables rs n prev = Except.error e) :
    chainLoop tables rs (steps + 1) n chain = Except.error e := by
  simp only [chainLoop, hprev, h]


/-- What a run of the generation loop that returns has done: the chain it started
from is kept, one transaction is added per iteration, and the transaction at position
`m` is the one that the body of the loop built at counter `m` from the transaction at
position `m - 1`. -/
theorem chainLoop_ok (tables : Tables) (rs : RandSource) (steps : Nat) :
    ∀ (n : Nat) (chain result : List Transaction), chain.length = n →
      chainLoop tables rs steps n chain = Except.ok result →
      result.length = n + steps ∧ (∀ i, i < n → result[i]? = chain[i]?) ∧
      ∀ m, n ≤ m → m < n + steps → ∃ prev t, result[m - 1]? = some prev ∧
        chainStep tables rs m prev = Except.ok t ∧ result[m]? = some t := by
  induction steps with
  | zero =>
    intro n chain result hlen h
    simp only [chainLoop] at h
    cases h
    exact ⟨by simpa using hlen, fun _ _ => rfl, fun m h₁ h₂ => by omega⟩
  | succ steps ih =>
    intro n chain result hlen h
    cases hprev : chain[n - 1]? with
    | none => simp only [chainLoop, hprev] at h; cases h
    | some prev =>
      cases hstep : chainStep tables rs n prev with
      | error e => simp only [chainLoop, hprev, hstep] at h; cases h
      | ok t =>
        simp only [chainLoop, hprev, hstep] at h
        obtain ⟨h₁, h₂, h₃⟩ := ih (n + 1) (chain ++ [t]) result (by simp [hlen]) h
        have hkeep : ∀ i, i < n → result[i]? = chain[i]? := by
          intro i hi
          rw [h₂ i (by omega), List.getElem?_append_left (by omega)]
        refine ⟨by omega, hkeep, ?_⟩
        intro m hm₁ hm₂
        by_cases hm : m = n
        · subst hm
          have hn : 0 < m := by
            by_contra h0
            have : m = 0 := by omega
            subst this
            have : chain = [] := List.length_eq_zero.1 hlen
            subst this
            simp at hprev
          refine ⟨prev, t, ?_, hstep, ?_⟩
          · rw [hkeep (m - 1) (by omega), hprev]
          · rw [h₂ m (by omega), List.getElem?_append_right (by omega)]
            simp [hlen]
        · exact h₃ m (by omega) (by omega)

/-! ## Storage layout of a map -/

theorem mapGet_perm {V : Type} (p q : GoMap V) (hp : (mapKeys p).Nodup) (h : p.Perm q)
    (k : String) : mapGet p k = mapGet q k := by
  have hq : (mapKeys q).Nodup := (List.Perm.nodup_iff (h.map Prod.fst)).1 hp
  cases hget : mapGet p k with
  | none =>
    have hk : k ∉ mapKeys p := (mapGet_eq_none_iff p k).1 hget
    have hk' : k ∉ mapKeys q := fun hmem => hk ((h.map Prod.fst).mem_iff.2 hmem)
    exact ((mapGet_eq_none_iff q k).2 hk').symm
  | some v =>
    have hmem : (k, v) ∈ q := h.mem_iff.1 (mem_of_mapGet p k v hget)
    exact (mapGet_of_mem q k v hq hmem).symm

theorem sample_congr (p q : GoMap ℚ) (hlen : p.length = q.length)
    (hget : ∀ k, mapGet p k = mapGet q k) (order : List String) (random : ℚ) :
    sample p order random = sample q order random := by
  have hprob : ∀ k, probOf p k = probOf q k := fun k => by simp only [probOf, hget k]
  have hkeys : sampleKeys p order = sampleKeys q order := by simp only [sampleKeys, hlen]
  have hcum : ∀ keys, cumulate p keys = cumulate q keys := by
    intro keys
    simp only [cumulate, hprob]
  simp only [sample, hkeys, hcum]

/-! ## Concrete runs -/

theorem chainStep_eq_ok (tables : Tables) (rs : RandSource) (n : Nat) (prev : Transaction)
    (sender recipient amount : String)
    (hs : sampleAt rs (3 * (n - 1)) tables.senderProbabilitiesGivenRecipientAmount
      (outerKey prev.recipient prev.amount) = Except.ok sender)
    (hr : sampleAt rs (3 * (n - 1) + 1) tables.recipientProbabilitiesGivenSenderAmount
      (outerKey sender prev.amount) = Except.ok recipient)
    (ha : sampleAt rs (3 * (n - 1) + 2) tables.amountProbabilitiesGivenSenderRecipient
      (outerKey sender recipient) = Except.ok amount) :
    chainStep tables rs n prev = Except.ok ⟨sender, recipient, amount⟩ := by
  unfold chainStep
  unfold outerKey at hs hr ha
  rw [hs]
  show (sampleAt rs (3 * (n - 1) + 1) tables.recipientProbabilitiesGivenSenderAmount
    (String.join [sender, prev.amount]) >>= _) = _
  rw [hr]
  show (sampleAt rs (3 * (n - 1) + 2) tables.amountProbabilitiesGivenSenderRecipient
    (String.join [sender, recipient]) >>= _) = _
  rw [ha]
  rfl

theorem tables_two :
    generateDependentDistributions [⟨"A", "B", "1"⟩, ⟨"A", "B", "1"⟩]
      = ⟨[("A1", [("B", 1)])], [("B1", [("A", 1)])], [("AB", [("1", 1)])]⟩ := by
  simp [generateDependentDistributions, countAll, countTransaction, incrementOrCreateCount,
    outerKey, String.join, mapGet, mapSet, countsToProbabilities, innerProbabilities, innerTotal]

theorem sample_single (k : String) (hk : k ≠ "") :
    sample [(k, 1)] [k] (1 / 2) = Except.ok k := by
  have hk' : ¬ "" = k := fun h => hk h.symm
  simp [sample, sampleKeys, cumulate, probOf, mapGet, mapSet, List.replicate, List.find?, hk, hk']
  norm_num

theorem step_two (n : Nat) :
    chainStep (generateDependentDistributions [⟨"A", "B", "1"⟩, ⟨"A", "B", "1"⟩])
      (constSource 0 (1 / 2)) n ⟨"A", "B", "1"⟩ = Except.ok ⟨"A", "B", "1"⟩ := by
  rw [tables_two]
  exact chainStep_eq_ok _ _ n _ "A" "B" "1" (sample_single "A" (by decide))
    (sample_single "B" (by decide)) (sample_single "1" (by decide))

theorem chain_two :
    generateChain 3 (constSource 0 (1 / 2)) [⟨"A", "B", "1"⟩, ⟨"A", "B", "1"⟩]
      = Except.ok [⟨"A", "B", "1"⟩, ⟨"A", "B", "1"⟩, ⟨"A", "B", "1"⟩] := by
  have hseed : seedTransaction (constSource 0 (1 / 2)) [⟨"A", "B", "1"⟩, ⟨"A", "B", "1"⟩]
      = Except.ok ⟨"A", "B", "1"⟩ := by rfl
  simp only [generateChain, hseed, chainLoop, step_two, List.getElem?_cons_zero,
    List.getElem?_cons_succ, List.cons_append, List.nil_append, Nat.sub_self, Nat.add_sub_cancel,
    Nat.reduceSub, Nat.reduceAdd, List.getElem?_eq_getElem, List.length_cons, List.length_nil,
    Nat.lt_add_one, List.getElem_cons_zero, List.getElem_cons_succ, Nat.one_lt_ofNat]

/-! ## The claims -/

/-- C1: for every dataset, in each of the three tables returned by
`generateDependentDistributions`, every entry is the normalisation of the inner count map
stored under the same key of the corresponding count table, the normalising total of
that key is not zero, and the probabilities of its outcomes sum to exactly 1 in
rational arithmetic, hence within `1e-9` of 1. -/
theorem generateDependentDistributions_normalised (transactions : List Transaction) :
    Normalised (countAll transactions).recipientCountGivenSenderAmount
        (generateDependentDistributions transactions).recipientProbabilitiesGivenSenderAmount ∧
    Normalised (countAll transactions).senderCountGivenRecipientAmount
        (generateDependentDistributions transactions).senderProbabilitiesGivenRecipientAmount ∧
    Normalised (countAll transactions).amountCountGivenSenderRecipient
        (generateDependentDistributions transactions).amountProbabilitiesGivenSenderRecipient := by
  obtain ⟨h₁, h₂, h₃⟩ := tablesOK_countAll transactions
  exact ⟨normalised_countsToProbabilities _ h₁, normalised_countsToProbabilities _ h₂,
    normalised_countsToProbabilities _ h₃⟩

/-- C1, on the dataset of the single transaction (A, B, 10): the table of recipients has
the entry of key "A10", and the probabilities of that entry sum to 1. -/
theorem generateDependentDistributions_normalised_witness :
    ("A10", [("B", (1 : ℚ))]) ∈
        (generateDependentDistributions [⟨"A", "B", "10"⟩]).recipientProbabilitiesGivenSenderAmount ∧
      probabilitySum [("B", (1 : ℚ))] = 1 :=
  have hmem : ("A10", [("B", (1 : ℚ))]) ∈
      (generateDependentDistributions [⟨"A", "B", "10"⟩]).recipientProbabilitiesGivenSenderAmount := by
    simp [generateDependentDistributions, countAll, countTransaction, incrementOrCreateCount,
      outerKey, String.join, mapGet, mapSet, countsToProbabilities, innerProbabilities,
      innerTotal]
  ⟨hmem, by
    obtain ⟨_, _, _, _, h, _⟩ :=
      (generateDependentDistributions_normalised [⟨"A", "B", "10"⟩]).1 _ hmem
    exact h⟩

/-- C2, refuted as stated: on the dataset [(ab, r1, c), (a, r2, bc)] the two observations
land under the one key "abc" of the (sender, amount) -> recipient table, whose
distribution has the two outcomes r1 and r2 of probability 1/2 each, although the two
senders differ. -/
theorem compositeKey_collision :
    (generateDependentDistributions
        [⟨"ab", "r1", "c"⟩, ⟨"a", "r2", "bc"⟩]).recipientProbabilitiesGivenSenderAmount
      = [("abc", [("r1", 1 / 2), ("r2", 1 / 2)])] ∧
    outerKey "ab" "c" = outerKey "a" "bc" ∧ ("ab" : String) ≠ "a" ∧ ("c" : String) ≠ "bc" := by
  refine ⟨?_, by decide, by decide, by decide⟩
  simp [generateDependentDistributions, countAll, countTransaction, incrementOrCreateCount,
    outerKey, String.join, mapGet, mapSet, countsToProbabilities, innerProbabilities, innerTotal]

/-- C2, amended: a composite key is the concatenation of its two fields. Every complete
transaction of the dataset is counted under the key `sender ++ amount` of the
(sender, amount) -> recipient table, under `recipient ++ amount` of the
(recipient, amount) -> sender table and under `sender ++ recipient` of the
(sender, recipient) -> amount table (its outcome has a positive probability there); and
two transactions whose first key fields have the same length have the same key only if
they have the same two key fields. -/
theorem compositeKey_concatenation (transactions : List Transaction) (t₁ t₂ : Transaction)
    (h₁ : t₁ ∈ transactions) (c₁ : Complete t₁) :
    (0 < probOf (distOf
        (generateDependentDistributions transactions).recipientProbabilitiesGivenSenderAmount
        (t₁.sender ++ t₁.amount)) t₁.recipient ∧
      0 < probOf (distOf
        (generateDependentDistributions transactions).senderProbabilitiesGivenRecipientAmount
        (t₁.recipient ++ t₁.amount)) t₁.sender ∧
      0 < probOf (distOf
        (generateDependentDistributions transactions).amountProbabilitiesGivenSenderRecipient
        (t₁.sender ++ t₁.recipient)) t₁.amount) ∧
    (t₁.sender.length = t₂.sender.length →
      outerKey t₁.sender t₁.amount = outerKey t₂.sender t₂.amount →
      t₁.sender = t₂.sender ∧ t₁.amount = t₂.amount) ∧
    (t₁.recipient.length = t₂.recipient.length →
      outerKey t₁.recipient t₁.amount = outerKey t₂.recipient t₂.amount →
      t₁.recipient = t₂.recipient ∧ t₁.amount = t₂.amount) ∧
    (t₁.sender.length = t₂.sender.length →
      outerKey t₁.sender t₁.recipient = outerKey t₂.sender t₂.recipient →
      t₁.sender = t₂.sender ∧ t₁.recipient = t₂.recipient) := by
  obtain ⟨p₁, p₂, p₃⟩ := countAll_proj transactions
  refine ⟨⟨?_, ?_, ?_⟩, ?_, ?_, ?_⟩
  · have := probOf_pos_countTable Transaction.sender Transaction.amount Transaction.recipient
      transactions t₁ h₁ c₁
    rw [outerKey_eq, ← p₁] at this
    exact this
  · have := probOf_pos_countTable Transaction.recipient Transaction.amount Transaction.sender
      transactions t₁ h₁ c₁
    rw [outerKey_eq, ← p₂] at this
    exact this
  · have := probOf_pos_countTable Transaction.sender Transaction.recipient Transaction.amount
      transactions t₁ h₁ c₁
    rw [outerKey_eq, ← p₃] at this
    exact this
  · intro hl h
    rw [outerKey_eq, outerKey_eq] at h
    exact append_inj_of_length _ _ _ _ hl h
  · intro hl h
    rw [outerKey_eq, outerKey_eq] at h
    exact append_inj_of_length _ _ _ _ hl h
  · intro hl h
    rw [outerKey_eq, outerKey_eq] at h
    exact append_inj_of_length _ _ _ _ hl h

/-- C2, amended, on the dataset [(ab, r1, c), (a, r2, bc)]: the first transaction is
counted under "ab" ++ "c" with a positive probability for r1. -/
theorem compositeKey_concatenation_witness :
    0 < probOf (distOf
        (generateDependentDistributions
          [⟨"ab", "r1", "c"⟩, ⟨"a", "r2", "bc"⟩]).recipientProbabilitiesGivenSenderAmount
        ("ab" ++ "c")) "r1" :=
  (compositeKey_concatenation [⟨"ab", "r1", "c"⟩, ⟨"a", "r2", "bc"⟩]
    ⟨"ab", "r1", "c"⟩ ⟨"a", "r2", "bc"⟩ (by simp) (by decide)).1.1

/-- In the labelling loop, a transaction whose sender has a component id and whose
recipient has none matches none of the three branches: the state is left as it is. -/
theorem labelStep_sender_only (st : Labelling) (t : Transaction)
    (hs : graphOf st.graphs t.sender ≠ 0) (hr : graphOf st.graphs t.recipient = 0) :
    labelStep st t = st := by
  simp [labelStep, hs, hr]

/-- C3, the code at the input [(D,E), (A,B), (B,C)]: the labelling pass leaves C without
a component id, the classes {D,E} and {A,B} have two addresses each and the first one
found is kept, so the function returns the transaction (D,E) alone, and neither (A,B)
nor (B,C). -/
theorem findLargestConnectedSubgraph_DE_first :
    labelAll [⟨"D", "E", "1"⟩, ⟨"A", "B", "1"⟩, ⟨"B", "C", "1"⟩]
      = ⟨[("D", 1), ("E", 1), ("A", 2), ("B", 2)], 3⟩ ∧
    findLargestConnectedSubgraph [⟨"D", "E", "1"⟩, ⟨"A", "B", "1"⟩, ⟨"B", "C", "1"⟩]
      = [⟨"D", "E", "1"⟩] := by
  decide

/-- C4, the code at the state {A: 1, B: 1} (counter 2) and the transaction (B, C): the
sender B has the id 1, the recipient C has none, and after the step the state is
unchanged, so C still has no id. -/
theorem labelStep_sender_only_unchanged :
    graphOf [("A", 1), ("B", 1)] "B" = 1 ∧ graphOf [("A", 1), ("B", 1)] "C" = 0 ∧
    labelStep ⟨[("A", 1), ("B", 1)], 2⟩ ⟨"B", "C", "1"⟩ = ⟨[("A", 1), ("B", 1)], 2⟩ ∧
    graphOf (labelStep ⟨[("A", 1), ("B", 1)], 2⟩ ⟨"B", "C", "1"⟩).graphs "C" = 0 := by
  decide

/-- C5, the code on the distribution {x: 3/10, y: 7/10} enumerated as [x, y]: the draws
1/5, 1/2 and 19/20 give x, y and y, but the draw 0 gives the empty string, which is
not a key of the distribution, although the first cumulative sum 3/10 reaches 0. -/
theorem sample_draw_zero :
    sample [("x", 3 / 10), ("y", 7 / 10)] ["x", "y"] 0 = Except.ok "" ∧
    mapGet [("x", (3 / 10 : ℚ)), ("y", 7 / 10)] "" = none ∧
    (0 : ℚ) ≤ probOf [("x", 3 / 10), ("y", 7 / 10)] "x" ∧
    sample [("x", 3 / 10), ("y", 7 / 10)] ["x", "y"] (1 / 5) = Except.ok "x" ∧
    sample [("x", 3 / 10), ("y", 7 / 10)] ["x", "y"] (1 / 2) = Except.ok "y" ∧
    sample [("x", 3 / 10), ("y", 7 / 10)] ["x", "y"] (19 / 20) = Except.ok "y" := by
  refine ⟨?_, by simp [mapGet], ?_, ?_, ?_, ?_⟩
  · simp [sample, sampleKeys, cumulate, probOf, mapGet, mapSet, List.replicate]
  · simp [probOf, mapGet]; norm_num
  · simp [sample, sampleKeys, cumulate, probOf, mapGet, mapSet, List.replicate, List.find?]
    norm_num
  · simp [sample, sampleKeys, cumulate, probOf, mapGet, mapSet, List.replicate, List.find?]
    norm_num
  · simp [sample, sampleKeys, cumulate, probOf, mapGet, mapSet, List.replicate, List.find?]
    norm_num

/-- C6, the code at the dataset [(A,B), (C,D), (E,F)]: the filtered list has the one
transaction (A,B), the bound given to `rand.Intn` is 2 (the length of the unfiltered
dataset minus 1), and for the drawn index 1 the seed access is out of range, which ends
the run. -/
theorem seed_index_out_of_range :
    findLargestConnectedSubgraph [⟨"A", "B", "1"⟩, ⟨"C", "D", "1"⟩, ⟨"E", "F", "1"⟩]
      = [⟨"A", "B", "1"⟩] ∧
    seedBound [⟨"A", "B", "1"⟩, ⟨"C", "D", "1"⟩, ⟨"E", "F", "1"⟩] = 2 ∧
    seedIndex (constSource 1 (1 / 2)) [⟨"A", "B", "1"⟩, ⟨"C", "D", "1"⟩, ⟨"E", "F", "1"⟩] = 1 ∧
    seedTransaction (constSource 1 (1 / 2))
        [⟨"A", "B", "1"⟩, ⟨"C", "D", "1"⟩, ⟨"E", "F", "1"⟩]
      = Except.error Fault.indexOutOfRange ∧
    generateChain 5000 (constSource 1 (1 / 2))
        [⟨"A", "B", "1"⟩, ⟨"C", "D", "1"⟩, ⟨"E", "F", "1"⟩]
      = Except.error Fault.indexOutOfRange := by
  refine ⟨by decide, by decide, by decide, ?_, ?_⟩
  · rfl
  · rfl

/-- C7, refuted as stated: on the empty distribution `sample` ends in `log.Fatal`, and
on the dataset [(A,B,""), (A,B,"")], whose tables are empty, the run of the chain
generator ends in that `log.Fatal` at its first call of `sample`. -/
theorem sample_exhaustion_exits :
    sample [] [] (1 / 2) = Except.error Fault.logFatal ∧
    generateChain 5000 (constSource 0 (1 / 2)) [⟨"A", "B", ""⟩, ⟨"A", "B", ""⟩]
      = Except.error Fault.logFatal := by
  refine ⟨by simp [sample, sampleKeys], ?_⟩
  rfl

/-- C7, amended: when the distribution passed to `sample` is empty (or missing), or no
cumulative value reaches the draw, `sample` ends in `log.Fatal`, the exit of the
process; and an iteration of the generation loop in which one of the three calls of
`sample` ends in a fault ends the loop in that fault: the chain generator has no
handler. -/
theorem sample_exhaustion_fatal (probabilities : GoMap ℚ) (order : List String) (random : ℚ)
    (h : (probabilities = [] ∧ order = []) ∨
      ∀ key ∈ sampleKeys probabilities order,
        ¬ random ≤ probOf (cumulate probabilities (sampleKeys probabilities order)).1 key) :
    sample probabilities order random = Except.error Fault.logFatal ∧
    ∀ (tables : Tables) (rs : RandSource) (steps n : Nat) (chain : List Transaction)
      (prev : Transaction) (e : Fault), chain[n - 1]? = some prev →
      StepFails tables rs n prev e →
      chainLoop tables rs (steps + 1) n chain = Except.error e := by
  constructor
  · rcases h with ⟨hp, ho⟩ | h
    · subst hp; subst ho
      exact sample_nil random
    · exact sample_eq_fatal_of_find probabilities order random h
  · intro tables rs steps n chain prev e hprev hfail
    apply chainLoop_error tables rs steps n chain prev e hprev
    rcases hfail with hs | ⟨sender, hs, hr⟩ | ⟨sender, recipient, hs, hr, ha⟩
    · exact chainStep_error_sender tables rs n prev e hs
    · exact chainStep_error_recipient tables rs n prev sender e hs hr
    · exact chainStep_error_amount tables rs n prev sender recipient e hs hr ha

/-- C7, amended, on the distribution {x: 3/10} and the draw 1/2: no cumulative value
reaches the draw, and `sample` ends in `log.Fatal`. -/
theorem sample_exhaustion_fatal_witness :
    (∀ key ∈ sampleKeys [("x", 3 / 10)] ["x"],
      ¬ (1 / 2 : ℚ) ≤ probOf (cumulate [("x", 3 / 10)] (sampleKeys [("x", 3 / 10)] ["x"])).1 key) ∧
    sample [("x", 3 / 10)] ["x"] (1 / 2) = Except.error Fault.logFatal :=
  have h : ∀ key ∈ sampleKeys [("x", 3 / 10)] ["x"],
      ¬ (1 / 2 : ℚ) ≤
        probOf (cumulate [("x", 3 / 10)] (sampleKeys [("x", 3 / 10)] ["x"])).1 key := by
    simp [sampleKeys, cumulate, probOf, mapGet, mapSet, List.replicate]
    norm_num
  ⟨h, (sample_exhaustion_fatal [("x", 3 / 10)] ["x"] (1 / 2) (Or.inr h)).1⟩

/-- C8, refuted as stated: on the distribution {x: 3/10, y: 7/10} and the draw 1/5,
`sample` returns x when the keys are enumerated as [x, y] and y when they are
enumerated as [y, x]. -/
theorem sample_order_dependent :
    sample [("x", 3 / 10), ("y", 7 / 10)] ["x", "y"] (1 / 5) = Except.ok "x" ∧
    sample [("x", 3 / 10), ("y", 7 / 10)] ["y", "x"] (1 / 5) = Except.ok "y" ∧
    List.Perm ["x", "y"] (mapKeys [("x", (3 / 10 : ℚ)), ("y", 7 / 10)]) ∧
    List.Perm ["y", "x"] (mapKeys [("x", (3 / 10 : ℚ)), ("y", 7 / 10)]) := by
  refine ⟨?_, ?_, by decide, by decide⟩
  · simp [sample, sampleKeys, cumulate, probOf, mapGet, mapSet, List.replicate, List.find?]
    norm_num
  · simp [sample, sampleKeys, cumulate, probOf, mapGet, mapSet, List.replicate, List.find?]
    norm_num

/-- C8, amended: the result of `sample` is a function of the draw, of the order in which
the keys are enumerated and of the probabilities of the keys: two runs on the same
distribution, however it is laid out in storage, with the same draw and the same
enumeration order return the same result. -/
theorem sample_layout_independent (p q : GoMap ℚ) (hp : (mapKeys p).Nodup) (h : p.Perm q)
    (order : List String) (random : ℚ) :
    sample p order random = sample q order random :=
  sample_congr p q h.length_eq (mapGet_perm p q hp h) order random

/-- C8, amended, on the two layouts of {x: 3/10, y: 7/10}, the order [x, y] and the
draw 1/5. -/
theorem sample_layout_independent_witness :
    sample [("x", 3 / 10), ("y", 7 / 10)] ["x", "y"] (1 / 5)
      = sample [("y", 7 / 10), ("x", 3 / 10)] ["x", "y"] (1 / 5) :=
  sample_layout_independent [("x", 3 / 10), ("y", 7 / 10)] [("y", 7 / 10), ("x", 3 / 10)]
    (by decide) (List.Perm.swap _ _ _) ["x", "y"] (1 / 5)

/-- C9: for every chain length `iterations >= 1`, every dataset and every random source,
a run of the chain generator that completes has produced exactly `iterations`
transactions; the first is the seed, and for every `n` from 1 to `iterations - 1` the
transaction at position `n` is the one built by the body of the loop at counter `n`
from the transaction at position `n - 1`. -/
theorem generateChain_length (iterations : Nat) (hN : 1 ≤ iterations) (rs : RandSource)
    (transactions chain : List Transaction)
    (h : generateChain iterations rs transactions = Except.ok chain) :
    chain.length = iterations ∧
    (∃ seed, seedTransaction rs transactions = Except.ok seed ∧ chain[0]? = some seed) ∧
    ∀ n, 1 ≤ n → n < iterations → ∃ prev t, chain[n - 1]? = some prev ∧
      chainStep (generateDependentDistributions transactions) rs n prev = Except.ok t ∧
      chain[n]? = some t := by
  unfold generateChain at h
  cases hseed : seedTransaction rs transactions with
  | error e => rw [hseed] at h; cases h
  | ok seed =>
    rw [hseed] at h
    obtain ⟨h₁, h₂, h₃⟩ := chainLoop_ok (generateDependentDistributions transactions) rs
      (iterations - 1) 1 [seed] chain rfl h
    refine ⟨by omega, ⟨seed, rfl, ?_⟩, ?_⟩
    · rw [h₂ 0 Nat.one_pos]; rfl
    · intro n hn₁ hn₂
      exact h₃ n hn₁ (by omega)

/-- C9, on the dataset [(A,B,1), (A,B,1)] with every draw equal to 1/2: the run for the
length 3 completes, with a chain of 3 transactions. -/
theorem generateChain_length_witness :
    generateChain 3 (constSource 0 (1 / 2)) [⟨"A", "B", "1"⟩, ⟨"A", "B", "1"⟩]
      = Except.ok [⟨"A", "B", "1"⟩, ⟨"A", "B", "1"⟩, ⟨"A", "B", "1"⟩] ∧
    [(⟨"A", "B", "1"⟩ : Transaction), ⟨"A", "B", "1"⟩, ⟨"A", "B", "1"⟩].length = 3 :=
  ⟨chain_two, (generateChain_length 3 (by decide) _ _ _ chain_two).1⟩

/-- C10: when the body of the generation loop builds the transaction `t` from the
previous transaction `prev`, the sender of `t` is the result of `sample` on the entry of
the sender table at the key of (prev.recipient, prev.amount), its recipient the result
on the entry of the recipient table at the key of (t.sender, prev.amount), and its
amount the result on the entry of the amount table at the key of
(t.sender, t.recipient). These are the entries that `generateDependentDistributions`
filled for those pairs: every complete transaction of the dataset with that pair of
fields has a positive probability for its third field in the entry consulted. -/
theorem chainStep_lookups (transactions : List Transaction) (rs : RandSource) (n : Nat)
    (prev t : Transaction)
    (h : chainStep (generateDependentDistributions transactions) rs n prev = Except.ok t) :
    (sampleAt rs (3 * (n - 1))
        (generateDependentDistributions transactions).senderProbabilitiesGivenRecipientAmount
        (outerKey prev.recipient prev.amount) = Except.ok t.sender ∧
      sampleAt rs (3 * (n - 1) + 1)
        (generateDependentDistributions transactions).recipientProbabilitiesGivenSenderAmount
        (outerKey t.sender prev.amount) = Except.ok t.recipient ∧
      sampleAt rs (3 * (n - 1) + 2)
        (generateDependentDistributions transactions).amountProbabilitiesGivenSenderRecipient
        (outerKey t.sender t.recipient) = Except.ok t.amount) ∧
    (∀ d ∈ transactions, Complete d → d.recipient = prev.recipient → d.amount = prev.amount →
      0 < probOf (distOf
        (generateDependentDistributions transactions).senderProbabilitiesGivenRecipientAmount
        (outerKey prev.recipient prev.amount)) d.sender) ∧
    (∀ d ∈ transactions, Complete d → d.sender = t.sender → d.amount = prev.amount →
      0 < probOf (distOf
        (generateDependentDistributions transactions).recipientProbabilitiesGivenSenderAmount
        (outerKey t.sender prev.amount)) d.recipient) ∧
    (∀ d ∈ transactions, Complete d → d.sender = t.sender → d.recipient = t.recipient →
      0 < probOf (distOf
        (generateDependentDistributions transactions).amountProbabilitiesGivenSenderRecipient
        (outerKey t.sender t.recipient)) d.amount) := by
  obtain ⟨p₁, p₂, p₃⟩ := countAll_proj transactions
  refine ⟨chainStep_ok _ rs n prev t h, ?_, ?_, ?_⟩
  · intro d hd hc h₁ h₂
    have := probOf_pos_countTable Transaction.recipient Transaction.amount Transaction.sender
      transactions d hd hc
    rw [← p₂, h₁, h₂] at this
    exact this
  · intro d hd hc h₁ h₂
    have := probOf_pos_countTable Transaction.sender Transaction.amount Transaction.recipient
      transactions d hd hc
    rw [← p₁, h₁, h₂] at this
    exact this
  · intro d hd hc h₁ h₂
    have := probOf_pos_countTable Transaction.sender Transaction.recipient Transaction.amount
      transactions d hd hc
    rw [← p₃, h₁, h₂] at this
    exact this

/-- C10, on the dataset [(A,B,1), (A,B,1)] with every draw equal to 1/2 and the previous
transaction (A,B,1): the step returns (A,B,1), whose sender A is the result of `sample`
on the entry of the sender table at the key of (B, 1). -/
theorem chainStep_lookups_witness :
    chainStep (generateDependentDistributions [⟨"A", "B", "1"⟩, ⟨"A", "B", "1"⟩])
        (constSource 0 (1 / 2)) 1 ⟨"A", "B", "1"⟩ = Except.ok ⟨"A", "B", "1"⟩ ∧
    sampleAt (constSource 0 (1 / 2)) (3 * (1 - 1))
        (generateDependentDistributions
          [⟨"A", "B", "1"⟩, ⟨"A", "B", "1"⟩]).senderProbabilitiesGivenRecipientAmount
        (outerKey "B" "1") = Except.ok "A" :=
  ⟨step_two 1, (chainStep_lookups [⟨"A", "B", "1"⟩, ⟨"A", "B", "1"⟩] (constSource 0 (1 / 2)) 1
    ⟨"A", "B", "1"⟩ ⟨"A", "B", "1"⟩ (step_two 1)).1.1⟩

/-! ## Incomplete transactions -/

theorem countTransaction_of_not_complete (c : CountTables) (t : Transaction)
    (h : ¬ Complete t) : countTransaction c t = c := by
  have h' : t.sender = "" ∨ t.recipient = "" ∨ t.amount = "" := not_not.1 h
  simp only [countTransaction, h', if_true]

theorem foldl_countTransaction_filter (transactions : List Transaction) :
    ∀ c : CountTables,
      transactions.foldl countTransaction c
        = (transactions.filter (fun t => decide (Complete t))).foldl countTransaction c := by
  induction transactions with
  | nil => intro c; rfl
  | cons t rest ih =>
    intro c
    by_cases h : Complete t
    · simp only [List.foldl_cons, List.filter_cons, h, decide_True, if_true]
      exact ih _
    · simp only [List.foldl_cons, List.filter_cons, h, decide_False, if_false,
        countTransaction_of_not_complete c t h]
      exact ih _

theorem countAll_filter (transactions : List Transaction) :
    countAll transactions = countAll (transactions.filter (fun t => decide (Complete t))) :=
  foldl_countTransaction_filter transactions _

/-! ## The labelling pass -/

theorem graphOf_mapSet_self (graphs : GoMap Nat) (a : String) (i : Nat) :
    graphOf (mapSet graphs a i) a = i := by
  simp [graphOf, mapGet_mapSet_self]

theorem graphOf_mapSet_ne (graphs : GoMap Nat) (a b : String) (i : Nat) (h : b ≠ a) :
    graphOf (mapSet graphs a i) b = graphOf graphs b := by
  simp [graphOf, mapGet_mapSet_ne _ _ _ _ h]

theorem labelStep_both (st : Labelling) (t : Transaction)
    (hs : graphOf st.graphs t.sender ≠ 0) (hr : graphOf st.graphs t.recipient ≠ 0) :
    labelStep st t
      = { st with graphs := mapSet st.graphs t.recipient (graphOf st.graphs t.sender) } := by
  simp [labelStep, hs, hr]

theorem labelStep_recipient_only (st : Labelling) (t : Transaction)
    (hs : graphOf st.graphs t.sender = 0) (hr : graphOf st.graphs t.recipient ≠ 0) :
    labelStep st t
      = { st with graphs := mapSet st.graphs t.sender (graphOf st.graphs t.recipient) } := by
  simp [labelStep, hs, hr]

theorem labelStep_neither (st : Labelling) (t : Transaction)
    (hs : graphOf st.graphs t.sender = 0) (hr : graphOf st.graphs t.recipient = 0) :
    labelStep st t
      = { graphs := mapSet (mapSet st.graphs t.sender st.nextGraph) t.recipient st.nextGraph
          nextGraph := st.nextGraph + 1 } := by
  simp [labelStep, hs, hr]

theorem graphOf_mem (graphs : GoMap Nat) (a : String) (h : graphOf graphs a ≠ 0) :
    (a, graphOf graphs a) ∈ graphs := by
  unfold graphOf at h ⊢
  cases hget : mapGet graphs a with
  | none => simp [hget] at h
  | some i => simpa using mem_of_mapGet graphs a i hget

theorem labelInv_mapSet (st : Labelling) (a : String) (i : Nat) (hi : 0 < i)
    (hlt : i < st.nextGraph) (h : LabelInv st) :
    LabelInv { st with graphs := mapSet st.graphs a i } := by
  refine ⟨h.1, ?_⟩
  intro e he
  rcases mem_mapSet st.graphs a i e he with heq | hmem
  · rw [heq]; exact ⟨hi, hlt⟩
  · exact h.2 e hmem

theorem labelInv_labelStep (st : Labelling) (t : Transaction) (h : LabelInv st) :
    LabelInv (labelStep st t) := by
  by_cases hs : graphOf st.graphs t.sender = 0
  · by_cases hr : graphOf st.graphs t.recipient = 0
    · rw [labelStep_neither st t hs hr]
      refine ⟨Nat.le_add_left 1 _, ?_⟩
      intro e he
      simp only at he
      rcases mem_mapSet _ _ _ e he with heq | hmem
      · rw [heq]; exact ⟨h.1, Nat.lt_succ_self _⟩
      · rcases mem_mapSet _ _ _ e hmem with heq | hmem'
        · rw [heq]; exact ⟨h.1, Nat.lt_succ_self _⟩
        · exact ⟨(h.2 e hmem').1, Nat.lt_succ_of_lt (h.2 e hmem').2⟩
    · rw [labelStep_recipient_only st t hs hr]
      have := h.2 _ (graphOf_mem st.graphs t.recipient hr)
      exact labelInv_mapSet st _ _ this.1 this.2 h
  · by_cases hr : graphOf st.graphs t.recipient = 0
    · rw [labelStep_sender_only st t hs hr]
      exact h
    · rw [labelStep_both st t hs hr]
      have := h.2 _ (graphOf_mem st.graphs t.sender hs)
      exact labelInv_mapSet st _ _ this.1 this.2 h

theorem labelInv_foldl (transactions : List Transaction) :
    ∀ st, LabelInv st → LabelInv (transactions.foldl labelStep st) := by
  induction transactions with
  | nil => intro st h; exact h
  | cons t rest ih => intro st h; exact ih _ (labelInv_labelStep st t h)

theorem labelInv_labelAll (transactions : List Transaction) : LabelInv (labelAll transactions) :=
  labelInv_foldl transactions _ ⟨Nat.le_refl 1, by simp⟩

theorem nextGraph_le_labelStep (st : Labelling) (t : Transaction) :
    st.nextGraph ≤ (labelStep st t).nextGraph := by
  unfold labelStep
  split
  · exact Nat.le_refl _
  · split
    · exact Nat.le_refl _
    · split
      · exact Nat.le_succ _
      · exact Nat.le_refl _

theorem graphOf_ne_nextGraph (st : Labelling) (h : LabelInv st) (a : String) :
    graphOf st.graphs a ≠ st.nextGraph := by
  by_cases h0 : graphOf st.graphs a = 0
  · rw [h0]; have := h.1; omega
  · have := (h.2 _ (graphOf_mem st.graphs a h0)).2
    simp only at this
    omega

/-- C13: `generateDependentDistributions` ignores incomplete transactions: for every
dataset its three tables are the tables computed from the dataset without the
transactions that have an empty sender, recipient or amount; and a dataset in which
every transaction has an empty field gives three empty tables. -/
theorem generateDependentDistributions_ignores_incomplete (transactions : List Transaction) :
    generateDependentDistributions transactions
      = generateDependentDistributions (transactions.filter (fun t => decide (Complete t))) ∧
    ((∀ t ∈ transactions, ¬ Complete t) →
      generateDependentDistributions transactions = ⟨[], [], []⟩) := by
  constructor
  · simp only [generateDependentDistributions, ← countAll_filter]
  · intro h
    have hnil : transactions.filter (fun t => decide (Complete t)) = [] := by
      rw [List.filter_eq_nil_iff]
      intro t ht
      simpa using h t ht
    simp only [generateDependentDistributions, countAll_filter transactions, hnil]
    rfl

/-- C13, on the dataset [(A, B, ""), ("", C, 5)]: every transaction has an empty field,
and the three tables are empty. -/
theorem generateDependentDistributions_ignores_incomplete_witness :
    (∀ t ∈ [(⟨"A", "B", ""⟩ : Transaction), ⟨"", "C", "5"⟩], ¬ Complete t) ∧
    generateDependentDistributions [⟨"A", "B", ""⟩, ⟨"", "C", "5"⟩] = ⟨[], [], []⟩ :=
  have h : ∀ t ∈ [(⟨"A", "B", ""⟩ : Transaction), ⟨"", "C", "5"⟩], ¬ Complete t := by decide
  ⟨h, (generateDependentDistributions_ignores_incomplete _).2 h⟩

/-- C15: in the labelling pass, for every labelling state and every transaction whose
sender and recipient both have a component id, the step gives the recipient the
sender's id and leaves the id of every other address and the counter unchanged. -/
theorem labelStep_both_labelled (st : Labelling) (t : Transaction)
    (hs : graphOf st.graphs t.sender ≠ 0) (hr : graphOf st.graphs t.recipient ≠ 0) :
    graphOf (labelStep st t).graphs t.recipient = graphOf st.graphs t.sender ∧
    (∀ a, a ≠ t.recipient → graphOf (labelStep st t).graphs a = graphOf st.graphs a) ∧
    (labelStep st t).nextGraph = st.nextGraph := by
  rw [labelStep_both st t hs hr]
  exact ⟨graphOf_mapSet_self _ _ _, fun a ha => graphOf_mapSet_ne _ _ _ _ ha, rfl⟩

/-- C15, on the state {A: 1, B: 1, C: 2, D: 2} and the transaction (A, C): C takes the
id 1 of A, and D, which shared the old id 2 of C, keeps it. -/
theorem labelStep_both_labelled_witness :
    graphOf (labelStep ⟨[("A", 1), ("B", 1), ("C", 2), ("D", 2)], 3⟩ ⟨"A", "C", "1"⟩).graphs "C"
      = graphOf [("A", 1), ("B", 1), ("C", 2), ("D", 2)] "A" ∧
    graphOf (labelStep ⟨[("A", 1), ("B", 1), ("C", 2), ("D", 2)], 3⟩ ⟨"A", "C", "1"⟩).graphs "D"
      = graphOf [("A", 1), ("B", 1), ("C", 2), ("D", 2)] "D" :=
  have h := labelStep_both_labelled ⟨[("A", 1), ("B", 1), ("C", 2), ("D", 2)], 3⟩
    ⟨"A", "C", "1"⟩ (by decide) (by decide)
  ⟨h.1, h.2.1 "D" (by decide)⟩

/-- C16: in every state that the labelling pass reaches from the empty mapping and the
counter 1, the counter is at least 1 and every component id held by an address is
positive and below the counter; a step never decreases the counter; and a step on a
transaction with neither endpoint labelled gives both endpoints the value of the
counter, which no address holds before the step, and increases the counter by 1. -/
theorem labelling_counter_invariant (transactions : List Transaction) (t : Transaction) :
    (1 ≤ (labelAll transactions).nextGraph ∧
      ∀ e ∈ (labelAll transactions).graphs, 0 < e.2 ∧ e.2 < (labelAll transactions).nextGraph) ∧
    (labelAll transactions).nextGraph ≤ (labelStep (labelAll transactions) t).nextGraph ∧
    labelAll (transactions ++ [t]) = labelStep (labelAll transactions) t ∧
    (graphOf (labelAll transactions).graphs t.sender = 0 →
      graphOf (labelAll transactions).graphs t.recipient = 0 →
      graphOf (labelStep (labelAll transactions) t).graphs t.sender
          = (labelAll transactions).nextGraph ∧
        graphOf (labelStep (labelAll transactions) t).graphs t.recipient
          = (labelAll transactions).nextGraph ∧
        (∀ a, graphOf (labelAll transactions).graphs a ≠ (labelAll transactions).nextGraph) ∧
        (labelStep (labelAll transactions) t).nextGraph
          = (labelAll transactions).nextGraph + 1) := by
  refine ⟨labelInv_labelAll transactions, nextGraph_le_labelStep _ t, ?_, ?_⟩
  · simp [labelAll, List.foldl_append]
  · intro hs hr
    rw [labelStep_neither _ t hs hr]
    refine ⟨?_, graphOf_mapSet_self _ _ _,
      graphOf_ne_nextGraph _ (labelInv_labelAll transactions), rfl⟩
    by_cases h : t.sender = t.recipient
    · simp only [h]
      exact graphOf_mapSet_self _ _ _
    · simp only
      rw [graphOf_mapSet_ne _ _ _ _ h]
      exact graphOf_mapSet_self _ _ _

/-- C16, after the dataset [(A, B)] and for the transaction (C, D): neither endpoint is
labelled, both receive the id 2, and the counter goes from 2 to 3. -/
theorem labelling_counter_invariant_witness :
    graphOf (labelAll [⟨"A", "B", "1"⟩]).graphs "C" = 0 ∧
    graphOf (labelAll [⟨"A", "B", "1"⟩]).graphs "D" = 0 ∧
    graphOf (labelStep (labelAll [⟨"A", "B", "1"⟩]) ⟨"C", "D", "1"⟩).graphs "C" = 2 ∧
    graphOf (labelStep (labelAll [⟨"A", "B", "1"⟩]) ⟨"C", "D", "1"⟩).graphs "D" = 2 ∧
    (labelStep (labelAll [⟨"A", "B", "1"⟩]) ⟨"C", "D", "1"⟩).nextGraph = 2 + 1 :=
  have h := (labelling_counter_invariant [⟨"A", "B", "1"⟩] ⟨"C", "D", "1"⟩).2.2.2
    (by decide) (by decide)
  ⟨by decide, by decide, h.1, h.2.1, h.2.2.2⟩

/-! ## Counts against the reference -/

theorem sum_mapSet (inner : GoMap Nat) (k : String) (v : Nat) :
    ((mapSet inner k v).map Prod.snd).sum + (mapGet inner k).getD 0
      = (inner.map Prod.snd).sum + v := by
  induction inner with
  | nil => simp [mapSet, mapGet]
  | cons e rest ih =>
    obtain ⟨k', v'⟩ := e
    by_cases hk : k' = k
    · simp [mapSet, mapGet, hk]; omega
    · simp [mapSet, mapGet, hk] at ih ⊢; omega

theorem innerTotal_mapSet_some (inner : GoMap Nat) (k : String) (c : Nat)
    (h : mapGet inner k = some c) : innerTotal (mapSet inner k (c + 1)) = innerTotal inner + 1 := by
  have := sum_mapSet inner k (c + 1)
  rw [h] at this
  simp only [Option.getD_some] at this
  rw [innerTotal_eq, innerTotal_eq]
  omega

theorem innerTotal_mapSet_none (inner : GoMap Nat) (k : String)
    (h : mapGet inner k = none) : innerTotal (mapSet inner k 1) = innerTotal inner + 1 := by
  have := sum_mapSet inner k 1
  rw [h] at this
  simp only [Option.getD_none] at this
  rw [innerTotal_eq, innerTotal_eq]
  omega

theorem countOf_mapSet_self (m : GoMap (GoMap Nat)) (k o : String) (inner : GoMap Nat) :
    countOf (mapSet m k inner) k o = (mapGet inner o).getD 0 := by
  simp [countOf, mapGet_mapSet_self]

theorem countOf_mapSet_ne (m : GoMap (GoMap Nat)) (k₀ k o : String) (inner : GoMap Nat)
    (h : k ≠ k₀) : countOf (mapSet m k₀ inner) k o = countOf m k o := by
  simp [countOf, mapGet_mapSet_ne _ _ _ _ h]

theorem totalOf_mapSet_self (m : GoMap (GoMap Nat)) (k : String) (inner : GoMap Nat) :
    totalOf (mapSet m k inner) k = innerTotal inner := by
  simp [totalOf, mapGet_mapSet_self]

theorem totalOf_mapSet_ne (m : GoMap (GoMap Nat)) (k₀ k : String) (inner : GoMap Nat)
    (h : k ≠ k₀) : totalOf (mapSet m k₀ inner) k = totalOf m k := by
  simp [totalOf, mapGet_mapSet_ne _ _ _ _ h]

theorem countOf_incrementOrCreateCount (keyStart keyEnd innerKey : String)
    (m : GoMap (GoMap Nat)) (k o : String) :
    countOf (incrementOrCreateCount keyStart keyEnd m innerKey) k o
      = countOf m k o + (if outerKey keyStart keyEnd = k ∧ innerKey = o then 1 else 0) := by
  unfold incrementOrCreateCount
  by_cases hk : k = outerKey keyStart keyEnd
  · subst hk
    cases hget : mapGet m (outerKey keyStart keyEnd) with
    | none =>
      simp only [countOf_mapSet_self]
      by_cases ho : innerKey = o <;> simp [countOf, hget, mapGet, ho]
    | some inner =>
      simp only
      cases hget' : mapGet inner innerKey with
      | none =>
        simp only [countOf_mapSet_self]
        by_cases ho : o = innerKey
        · subst ho
          simp [countOf, hget, hget', mapGet_mapSet_self]
        · have ho' : ¬ innerKey = o := fun h => ho h.symm
          simp [countOf, hget, mapGet_mapSet_ne _ _ _ _ ho, ho']
      | some count =>
        simp only [countOf_mapSet_self]
        by_cases ho : o = innerKey
        · subst ho
          simp [countOf, hget, hget', mapGet_mapSet_self]
        · have ho' : ¬ innerKey = o := fun h => ho h.symm
          simp [countOf, hget, mapGet_mapSet_ne _ _ _ _ ho, ho']
  · have hk' : ¬ outerKey keyStart keyEnd = k := fun h => hk h.symm
    cases mapGet m (outerKey keyStart keyEnd) with
    | none => simp [countOf_mapSet_ne _ _ _ _ _ hk, hk']
    | some inner =>
      simp only
      cases mapGet inner innerKey <;> simp [countOf_mapSet_ne _ _ _ _ _ hk, hk']

theorem totalOf_incrementOrCreateCount (keyStart keyEnd innerKey : String)
    (m : GoMap (GoMap Nat)) (k : String) :
    totalOf (incrementOrCreateCount keyStart keyEnd m innerKey) k
      = totalOf m k + (if outerKey keyStart keyEnd = k then 1 else 0) := by
  unfold incrementOrCreateCount
  by_cases hk : k = outerKey keyStart keyEnd
  · subst hk
    cases hget : mapGet m (outerKey keyStart keyEnd) with
    | none =>
      rw [totalOf_mapSet_self]
      simp [totalOf, hget, innerTotal]
    | some inner =>
      simp only
      cases hget' : mapGet inner innerKey with
      | none =>
        rw [totalOf_mapSet_self, innerTotal_mapSet_none inner innerKey hget']
        simp [totalOf, hget]
      | some count =>
        rw [totalOf_mapSet_self, innerTotal_mapSet_some inner innerKey count hget']
        simp [totalOf, hget]
  · have hk' : ¬ outerKey keyStart keyEnd = k := fun h => hk h.symm
    cases mapGet m (outerKey keyStart keyEnd) with
    | none => simp [totalOf_mapSet_ne _ _ _ _ hk, hk']
    | some inner =>
      simp only
      cases mapGet inner innerKey <;> simp [totalOf_mapSet_ne _ _ _ _ hk, hk']

theorem countOf_countTable (k₁ k₂ out : Transaction → String) (transactions : List Transaction)
    (k o : String) :
    ∀ m, countOf (countTable k₁ k₂ out transactions m) k o
      = countOf m k o + refOutcomeCount k₁ k₂ out transactions k o := by
  induction transactions with
  | nil => intro m; simp [countTable, refOutcomeCount]
  | cons t rest ih =>
    intro m
    have ih' := ih
    simp only [countTable, refOutcomeCount] at ih' ⊢
    simp only [List.foldl_cons, List.filter_cons]
    rw [ih']
    by_cases hc : t.sender = "" ∨ t.recipient = "" ∨ t.amount = ""
    · have hnc : ¬ Complete t := not_not.2 hc
      simp [hc, hnc]
    · have hcc : Complete t := hc
      simp only [hc, if_false, countOf_incrementOrCreateCount, hcc, true_and]
      by_cases hko : outerKey (k₁ t) (k₂ t) = k ∧ out t = o
      · simp [hko]; omega
      · simp [hko]

theorem totalOf_countTable (k₁ k₂ out : Transaction → String) (transactions : List Transaction)
    (k : String) :
    ∀ m, totalOf (countTable k₁ k₂ out transactions m) k
      = totalOf m k + refKeyCount k₁ k₂ transactions k := by
  induction transactions with
  | nil => intro m; simp [countTable, refKeyCount]
  | cons t rest ih =>
    intro m
    have ih' := ih
    simp only [countTable, refKeyCount] at ih' ⊢
    simp only [List.foldl_cons, List.filter_cons]
    rw [ih']
    by_cases hc : t.sender = "" ∨ t.recipient = "" ∨ t.amount = ""
    · have hnc : ¬ Complete t := not_not.2 hc
      simp [hc, hnc]
    · have hcc : Complete t := hc
      simp only [hc, if_false, totalOf_incrementOrCreateCount, hcc, true_and]
      by_cases hko : outerKey (k₁ t) (k₂ t) = k
      · simp [hko]; omega
      · simp [hko]

theorem refKeyCount_pos_iff (k₁ k₂ : Transaction → String) (transactions : List Transaction)
    (k : String) :
    0 < refKeyCount k₁ k₂ transactions k
      ↔ ∃ t ∈ transactions, Complete t ∧ outerKey (k₁ t) (k₂ t) = k := by
  unfold refKeyCount
  rw [List.length_pos_iff_exists_mem]
  constructor
  · rintro ⟨t, ht⟩
    rw [List.mem_filter] at ht
    exact ⟨t, ht.1, by simpa using ht.2⟩
  · rintro ⟨t, ht, h⟩
    exact ⟨t, List.mem_filter.2 ⟨ht, by simpa using h⟩⟩

theorem refOutcomeCount_pos_iff (k₁ k₂ out : Transaction → String)
    (transactions : List Transaction) (k o : String) :
    0 < refOutcomeCount k₁ k₂ out transactions k o
      ↔ ∃ t ∈ transactions, Complete t ∧ outerKey (k₁ t) (k₂ t) = k ∧ out t = o := by
  unfold refOutcomeCount
  rw [List.length_pos_iff_exists_mem]
  constructor
  · rintro ⟨t, ht⟩
    rw [List.mem_filter] at ht
    exact ⟨t, ht.1, by simpa using ht.2⟩
  · rintro ⟨t, ht, h⟩
    exact ⟨t, List.mem_filter.2 ⟨ht, by simpa using h⟩⟩

theorem tableProb_countsToProbabilities (m : GoMap (GoMap Nat)) (hm : CountsOK m)
    (k o : String) :
    tableProb (countsToProbabilities m) k o
      = if countOf m k o = 0 then none
        else some ((countOf m k o : ℚ) / (totalOf m k : ℚ)) := by
  unfold tableProb countOf totalOf
  rw [mapGet_countsToProbabilities m hm]
  cases hget : mapGet m k with
  | none => simp
  | some inner =>
    have hin : InnerOK inner := hm.2 _ (mem_of_mapGet m k inner hget)
    simp only [Option.map_some', Option.some_bind, mapGet_innerProbabilities inner hin.1,
      Option.getD_some]
    cases hget' : mapGet inner o with
    | none => simp
    | some count =>
      have hpos : 0 < count := hin.2.2 _ (mem_of_mapGet inner o count hget')
      have hne : count ≠ 0 := Nat.pos_iff_ne_zero.1 hpos
      simp [hne]

theorem isSome_mapGet_countsToProbabilities (m : GoMap (GoMap Nat)) (hm : CountsOK m)
    (k : String) : (mapGet (countsToProbabilities m) k).isSome ↔ 0 < totalOf m k := by
  unfold totalOf
  rw [mapGet_countsToProbabilities m hm]
  cases hget : mapGet m k with
  | none => simp
  | some inner =>
    have hin : InnerOK inner := hm.2 _ (mem_of_mapGet m k inner hget)
    simpa using innerTotal_pos inner hin

/-- The probability table computed from one count table of a dataset is the reference
table. -/
theorem refinesReference_countTable (k₁ k₂ out : Transaction → String)
    (transactions : List Transaction) :
    RefinesReference k₁ k₂ out transactions
      (countsToProbabilities (countTable k₁ k₂ out transactions [])) := by
  have hm : CountsOK (countTable k₁ k₂ out transactions []) :=
    countsOK_countTable k₁ k₂ out transactions [] countsOK_nil
  have hcount : ∀ k o, countOf (countTable k₁ k₂ out transactions []) k o
      = refOutcomeCount k₁ k₂ out transactions k o := by
    intro k o
    rw [countOf_countTable]
    simp [countOf, mapGet]
  have htotal : ∀ k, totalOf (countTable k₁ k₂ out transactions []) k
      = refKeyCount k₁ k₂ transactions k := by
    intro k
    rw [totalOf_countTable]
    simp [totalOf, mapGet]
  intro k o
  have hprob := tableProb_countsToProbabilities _ hm k o
  rw [hcount, htotal] at hprob
  refine ⟨?_, ?_, ?_⟩
  · rw [isSome_mapGet_countsToProbabilities _ hm, htotal, refKeyCount_pos_iff]
  · rw [hprob, ← refOutcomeCount_pos_iff]
    by_cases h0 : refOutcomeCount k₁ k₂ out transactions k o = 0
    · simp [h0]
    · simp [h0, Nat.pos_iff_ne_zero]
  · rw [hprob]
    rfl

theorem refProbability_perm (k₁ k₂ out : Transaction → String)
    (transactions transactions' : List Transaction) (h : transactions.Perm transactions')
    (k o : String) :
    refProbability k₁ k₂ out transactions k o = refProbability k₁ k₂ out transactions' k o := by
  have h₁ : refOutcomeCount k₁ k₂ out transactions k o
      = refOutcomeCount k₁ k₂ out transactions' k o := (h.filter _).length_eq
  have h₂ : refKeyCount k₁ k₂ transactions k = refKeyCount k₁ k₂ transactions' k :=
    (h.filter _).length_eq
  simp only [refProbability, h₁, h₂]

theorem sameTable_of_refinesReference (k₁ k₂ out : Transaction → String)
    (transactions transactions' : List Transaction) (h : transactions.Perm transactions')
    (table table' : GoMap (GoMap ℚ)) (hr : RefinesReference k₁ k₂ out transactions table)
    (hr' : RefinesReference k₁ k₂ out transactions' table') : SameTable table table' := by
  intro k o
  obtain ⟨a₁, _, a₃⟩ := hr k o
  obtain ⟨b₁, _, b₃⟩ := hr' k o
  refine ⟨?_, ?_⟩
  · rw [a₁, b₁]
    constructor
    · rintro ⟨t, ht, hc⟩
      exact ⟨t, h.mem_iff.1 ht, hc⟩
    · rintro ⟨t, ht, hc⟩
      exact ⟨t, h.mem_iff.2 ht, hc⟩
  · rw [a₃, b₃]
    exact refProbability_perm k₁ k₂ out transactions transactions' h k o

theorem tables_refine_reference (transactions : List Transaction) :
    RefinesReference Transaction.sender Transaction.amount Transaction.recipient transactions
      (generateDependentDistributions transactions).recipientProbabilitiesGivenSenderAmount ∧
    RefinesReference Transaction.recipient Transaction.amount Transaction.sender transactions
      (generateDependentDistributions transactions).senderProbabilitiesGivenRecipientAmount ∧
    RefinesReference Transaction.sender Transaction.recipient Transaction.amount transactions
      (generateDependentDistributions transactions).amountProbabilitiesGivenSenderRecipient := by
  obtain ⟨p₁, p₂, p₃⟩ := countAll_proj transactions
  simp only [generateDependentDistributions, p₁, p₂, p₃]
  exact ⟨refinesReference_countTable _ _ _ transactions,
    refinesReference_countTable _ _ _ transactions,
    refinesReference_countTable _ _ _ transactions⟩

/-- C12: for every dataset, each table returned by `generateDependentDistributions` is the
reference table over the code's composite key: a key is present iff some complete
transaction has that key, an outcome is present under it iff some complete transaction
has that key and that outcome, and its probability is the number of complete
transactions with that key and outcome divided by the number of complete transactions
with that key. -/
theorem generateDependentDistributions_refines_reference (transactions : List Transaction) :
    RefinesReference Transaction.sender Transaction.amount Transaction.recipient transactions
      (generateDependentDistributions transactions).recipientProbabilitiesGivenSenderAmount ∧
    RefinesReference Transaction.recipient Transaction.amount Transaction.sender transactions
      (generateDependentDistributions transactions).senderProbabilitiesGivenRecipientAmount ∧
    RefinesReference Transaction.sender Transaction.recipient Transaction.amount transactions
      (generateDependentDistributions transactions).amountProbabilitiesGivenSenderRecipient :=
  tables_refine_reference transactions

/-- C12, on the dataset [(ab, r1, c), (a, r2, bc)] and the key "abc": the entry of the
outcome r1 is the reference one, built from 1 transaction out of 2. -/
theorem generateDependentDistributions_refines_reference_witness :
    tableProb
        (generateDependentDistributions
          [⟨"ab", "r1", "c"⟩, ⟨"a", "r2", "bc"⟩]).recipientProbabilitiesGivenSenderAmount
        "abc" "r1"
      = refProbability Transaction.sender Transaction.amount Transaction.recipient
          [⟨"ab", "r1", "c"⟩, ⟨"a", "r2", "bc"⟩] "abc" "r1" ∧
    refOutcomeCount Transaction.sender Transaction.amount Transaction.recipient
      [⟨"ab", "r1", "c"⟩, ⟨"a", "r2", "bc"⟩] "abc" "r1" = 1 ∧
    refKeyCount Transaction.sender Transaction.amount
      [⟨"ab", "r1", "c"⟩, ⟨"a", "r2", "bc"⟩] "abc" = 2 :=
  ⟨((generateDependentDistributions_refines_reference
      [⟨"ab", "r1", "c"⟩, ⟨"a", "r2", "bc"⟩]).1 "abc" "r1").2.2, by decide, by decide⟩

/-- C20: `generateDependentDistributions` does not depend on the order of the dataset: for
every dataset and every permutation of it, each of the three tables has the same keys
and, under every key, the same outcomes with the same probabilities. -/
theorem generateDependentDistributions_perm (transactions transactions' : List Transaction)
    (h : transactions.Perm transactions') :
    SameTable
      (generateDependentDistributions transactions).recipientProbabilitiesGivenSenderAmount
      (generateDependentDistributions transactions').recipientProbabilitiesGivenSenderAmount ∧
    SameTable
      (generateDependentDistributions transactions).senderProbabilitiesGivenRecipientAmount
      (generateDependentDistributions transactions').senderProbabilitiesGivenRecipientAmount ∧
    SameTable
      (generateDependentDistributions transactions).amountProbabilitiesGivenSenderRecipient
      (generateDependentDistributions transactions').amountProbabilitiesGivenSenderRecipient := by
  obtain ⟨a₁, a₂, a₃⟩ := tables_refine_reference transactions
  obtain ⟨b₁, b₂, b₃⟩ := tables_refine_reference transactions'
  exact ⟨sameTable_of_refinesReference _ _ _ _ _ h _ _ a₁ b₁,
    sameTable_of_refinesReference _ _ _ _ _ h _ _ a₂ b₂,
    sameTable_of_refinesReference _ _ _ _ _ h _ _ a₃ b₃⟩

/-- C20, on the dataset [(A, B, 1), (C, D, 2)] and its reversal: the entry of the outcome
B under the key "A1" is the same in both tables of recipients. -/
theorem generateDependentDistributions_perm_witness :
    tableProb
        (generateDependentDistributions
          [⟨"A", "B", "1"⟩, ⟨"C", "D", "2"⟩]).recipientProbabilitiesGivenSenderAmount "A1" "B"
      = tableProb
        (generateDependentDistributions
          [⟨"C", "D", "2"⟩, ⟨"A", "B", "1"⟩]).recipientProbabilitiesGivenSenderAmount "A1" "B" :=
  ((generateDependentDistributions_perm [⟨"A", "B", "1"⟩, ⟨"C", "D", "2"⟩]
    [⟨"C", "D", "2"⟩, ⟨"A", "B", "1"⟩] (List.Perm.swap _ _ _)).1 "A1" "B").2

/-! ## The cumulative walk of the sampler -/

theorem cumulate_eq_cumFrom (p : GoMap ℚ) (keys : List String) :
    cumulate p keys = cumFrom p ([], 0) keys := rfl

theorem cumFrom_cons (p : GoMap ℚ) (acc : GoMap ℚ × ℚ) (key : String) (rest : List String) :
    cumFrom p acc (key :: rest)
      = cumFrom p (mapSet acc.1 key (acc.2 + probOf p key), acc.2 + probOf p key) rest := rfl

theorem cumFrom_append (p : GoMap ℚ) (acc : GoMap ℚ × ℚ) (ks ks' : List String) :
    cumFrom p acc (ks ++ ks') = cumFrom p (cumFrom p acc ks) ks' := by
  simp [cumFrom, List.foldl_append]

theorem probOf_mapSet_self (m : GoMap ℚ) (k : String) (v : ℚ) :
    probOf (mapSet m k v) k = v := by
  simp [probOf, mapGet_mapSet_self]

theorem probOf_mapSet_ne (m : GoMap ℚ) (k k' : String) (v : ℚ) (h : k' ≠ k) :
    probOf (mapSet m k v) k' = probOf m k' := by
  simp [probOf, mapGet_mapSet_ne _ _ _ _ h]

theorem probOf_cumFrom_of_not_mem (p : GoMap ℚ) (keys : List String) (k : String)
    (h : k ∉ keys) : ∀ acc, probOf (cumFrom p acc keys).1 k = probOf acc.1 k := by
  induction keys with
  | nil => intro acc; rfl
  | cons key rest ih =>
    intro acc
    simp only [List.mem_cons, not_or] at h
    rw [cumFrom_cons, ih h.2]
    exact probOf_mapSet_ne _ _ _ _ h.1

theorem cumFrom_replicate (p : GoMap ℚ) (h0 : probOf p "" = 0) (n : Nat) :
    ∀ acc : GoMap ℚ × ℚ, acc.2 = 0 → probOf acc.1 "" = 0 →
      (cumFrom p acc (List.replicate n "")).2 = 0 ∧
      probOf (cumFrom p acc (List.replicate n "")).1 "" = 0 := by
  induction n with
  | zero => intro acc h₁ h₂; exact ⟨h₁, h₂⟩
  | succ n ih =>
    intro acc h₁ h₂
    rw [List.replicate_succ, cumFrom_cons]
    apply ih
    · simp [h₁, h0]
    · rw [probOf_mapSet_self]
      simp [h₁, h0]

theorem find?_eq_firstReaching (p : GoMap ℚ) (u : ℚ) (ks : List String) :
    ks.Nodup → ∀ (acc : GoMap ℚ × ℚ) (F : String → ℚ),
      (∀ k ∈ ks, F k = probOf (cumFrom p acc ks).1 k) →
      ks.find? (fun key => decide (u ≤ F key)) = firstReaching p u ks acc.2 := by
  induction ks with
  | nil => intro _ acc F _; rfl
  | cons key rest ih =>
    intro hnd acc F hF
    rw [List.nodup_cons] at hnd
    have hkey : F key = acc.2 + probOf p key := by
      rw [hF key (List.mem_cons_self _ _), cumFrom_cons,
        probOf_cumFrom_of_not_mem p rest key hnd.1, probOf_mapSet_self]
    have hrest := ih hnd.2 (mapSet acc.1 key (acc.2 + probOf p key), acc.2 + probOf p key) F
      (fun k hk => by rw [hF k (List.mem_cons_of_mem _ hk), cumFrom_cons])
    by_cases hu : u ≤ acc.2 + probOf p key
    · simp [List.find?, firstReaching, hkey, hu]
    · simp [List.find?, firstReaching, hkey, hu, hrest]

theorem firstReaching_mem (p : GoMap ℚ) (u : ℚ) (ks : List String) :
    ∀ (sum : ℚ) (k : String), firstReaching p u ks sum = some k → k ∈ ks := by
  induction ks with
  | nil => intro sum k h; simp [firstReaching] at h
  | cons key rest ih =>
    intro sum k h
    simp only [firstReaching] at h
    split at h
    · cases h; exact List.mem_cons_self _ _
    · exact List.mem_cons_of_mem _ (ih _ k h)

/-- The result of `sample` on a distribution without the empty-string key, for an
enumeration of its keys and a positive draw. -/
theorem sample_eq_firstReaching (p : GoMap ℚ) (order : List String) (u : ℚ)
    (hnd : (mapKeys p).Nodup) (hperm : order.Perm (mapKeys p)) (hempty : "" ∉ mapKeys p)
    (hu : 0 < u) :
    sample p order u = sampleResult (firstReaching p u order 0) := by
  have h0 : probOf p "" = 0 := by
    simp [probOf, (mapGet_eq_none_iff p "").2 hempty]
  have hord : order.Nodup := hperm.nodup_iff.2 hnd
  have hemp : "" ∉ order := fun h => hempty (hperm.mem_iff.1 h)
  obtain ⟨hA₁, hA₂⟩ := cumFrom_replicate p h0 p.length ([], 0) rfl (by simp [probOf, mapGet])
  have hfind : ∀ final : GoMap ℚ, final = (cumulate p (sampleKeys p order)).1 →
      (sampleKeys p order).find? (fun key => decide (u ≤ probOf final key))
        = firstReaching p u order 0 := by
    intro final hfin
    have hfinal : final
        = (cumFrom p (cumFrom p ([], 0) (List.replicate p.length "")) order).1 := by
      rw [hfin, cumulate_eq_cumFrom, sampleKeys, cumFrom_append]
    have hpre : (List.replicate p.length "").find?
        (fun key => decide (u ≤ probOf final key)) = none := by
      rw [List.find?_eq_none]
      intro key hkey
      have : key = "" := (List.mem_replicate.1 hkey).2
      subst this
      rw [hfinal, probOf_cumFrom_of_not_mem p order "" hemp, hA₂]
      simpa using hu
    have hwalk := find?_eq_firstReaching p u order hord
      (cumFrom p ([], 0) (List.replicate p.length "")) (fun key => probOf final key)
      (fun k _ => by rw [hfinal])
    rw [hA₁] at hwalk
    rw [sampleKeys, List.find?_append, hpre, hwalk]
    rfl
  unfold sample
  simp only []
  rw [hfind _ rfl]
  cases firstReaching p u order 0 <;> rfl

theorem sample_zero (p : GoMap ℚ) (order : List String)
    (hperm : order.Perm (mapKeys p)) (hempty : "" ∉ mapKeys p) (hne : p ≠ []) :
    sample p order 0 = Except.ok "" := by
  have h0 : probOf p "" = 0 := by
    simp [probOf, (mapGet_eq_none_iff p "").2 hempty]
  have hemp : "" ∉ order := fun h => hempty (hperm.mem_iff.1 h)
  obtain ⟨_, hA₂⟩ := cumFrom_replicate p h0 p.length ([], 0) rfl (by simp [probOf, mapGet])
  obtain ⟨n, hn⟩ : ∃ n, p.length = n + 1 :=
    Nat.exists_eq_succ_of_ne_zero (fun h => hne (List.length_eq_zero.1 h))
  have hfind : ∀ final : GoMap ℚ, final = (cumulate p (sampleKeys p order)).1 →
      (sampleKeys p order).find? (fun key => decide ((0 : ℚ) ≤ probOf final key))
        = some "" := by
    intro final hfin
    have hval : probOf final "" = 0 := by
      rw [hfin, cumulate_eq_cumFrom, sampleKeys, cumFrom_append,
        probOf_cumFrom_of_not_mem p order "" hemp, hA₂]
    rw [sampleKeys, hn, List.replicate_succ, List.cons_append, List.find?_cons]
    simp [hval]
  unfold sample
  simp only []
  rw [hfind _ rfl]

theorem sample_mem_of_pos (p : GoMap ℚ) (order : List String) (u : ℚ)
    (hnd : (mapKeys p).Nodup) (hperm : order.Perm (mapKeys p)) (hempty : "" ∉ mapKeys p)
    (hu : 0 < u) (k : String) (h : sample p order u = Except.ok k) : k ∈ mapKeys p := by
  rw [sample_eq_firstReaching p order u hnd hperm hempty hu] at h
  cases hf : firstReaching p u order 0 with
  | none => rw [hf] at h; cases h
  | some key =>
    rw [hf] at h
    cases h
    exact hperm.mem_iff.1 (firstReaching_mem p u order 0 k hf)

/-! ## Outcomes of the tables -/

theorem nodup_distOf (m : GoMap (GoMap Nat)) (hm : CountsOK m) (key : String) :
    (mapKeys (distOf (countsToProbabilities m) key)).Nodup := by
  unfold distOf
  rw [mapGet_countsToProbabilities m hm]
  cases hget : mapGet m key with
  | none => simp [mapKeys]
  | some inner =>
    have hin : InnerOK inner := hm.2 _ (mem_of_mapGet m key inner hget)
    simp only [Option.map_some', Option.getD_some, innerProbabilities_eq inner hin.1, mapKeys,
      List.map_map]
    exact hin.1

theorem isSome_tableProb_of_mem (table : GoMap (GoMap ℚ)) (key k : String)
    (h : k ∈ mapKeys (distOf table key)) : (tableProb table key k).isSome := by
  unfold distOf at h
  unfold tableProb
  cases hget : mapGet table key with
  | none => simp [hget, mapKeys] at h
  | some dist =>
    rw [hget] at h
    simp only [Option.getD_some] at h
    simp only [Option.some_bind]
    cases hk : mapGet dist k with
    | none => exact absurd h ((mapGet_eq_none_iff dist k).1 hk)
    | some v => rfl

/-- A result of `sample` on an entry of a table of the dataset, for a positive draw and
an enumeration of the keys of the entry, is the outcome of a complete transaction of the
dataset that has the key of the entry. -/
theorem sample_table_outcome (k₁ k₂ out : Transaction → String)
    (hout : ∀ t, Complete t → out t ≠ "") (transactions : List Transaction) (key : String)
    (order : List String) (u : ℚ) (hu : 0 < u)
    (hperm : order.Perm
      (mapKeys (distOf (countsToProbabilities (countTable k₁ k₂ out transactions [])) key)))
    (o : String)
    (h : sample (distOf (countsToProbabilities (countTable k₁ k₂ out transactions [])) key)
      order u = Except.ok o) :
    ∃ t ∈ transactions, Complete t ∧ outerKey (k₁ t) (k₂ t) = key ∧ out t = o := by
  have hm : CountsOK (countTable k₁ k₂ out transactions []) :=
    countsOK_countTable k₁ k₂ out transactions [] countsOK_nil
  have href := refinesReference_countTable k₁ k₂ out transactions
  have hmem : ∀ k, k ∈ mapKeys
      (distOf (countsToProbabilities (countTable k₁ k₂ out transactions [])) key) →
      ∃ t ∈ transactions, Complete t ∧ outerKey (k₁ t) (k₂ t) = key ∧ out t = k :=
    fun k hk => ((href key k).2.1).1 (isSome_tableProb_of_mem _ key k hk)
  have hempty : "" ∉ mapKeys
      (distOf (countsToProbabilities (countTable k₁ k₂ out transactions [])) key) := by
    intro hk
    obtain ⟨t, _, hc, _, ho⟩ := hmem "" hk
    exact hout t hc ho
  exact hmem o (sample_mem_of_pos _ order u (nodup_distOf _ hm key) hperm hempty hu o h)

theorem complete_sender_ne (t : Transaction) (h : Complete t) : t.sender ≠ "" :=
  fun h' => h (Or.inl h')

theorem complete_recipient_ne (t : Transaction) (h : Complete t) : t.recipient ≠ "" :=
  fun h' => h (Or.inr (Or.inl h'))

theorem complete_amount_ne (t : Transaction) (h : Complete t) : t.amount ≠ "" :=
  fun h' => h (Or.inr (Or.inr h'))

/-- A step of the generation loop on the tables of a dataset whose complete transactions
have senders of one length, with positive draws and enumerations of the keys, builds a
complete transaction of the dataset. -/
theorem chainStep_mem (transactions : List Transaction) (rs : RandSource) (L : Nat)
    (hlen : ∀ d ∈ transactions, Complete d → d.sender.length = L)
    (henum : ∀ i m, (rs.keyOrder i m).Perm (mapKeys m)) (hpos : ∀ i, 0 < rs.float64 i)
    (n : Nat) (prev t : Transaction)
    (h : chainStep (generateDependentDistributions transactions) rs n prev = Except.ok t) :
    t ∈ transactions ∧ Complete t := by
  obtain ⟨p₁, p₂, p₃⟩ := countAll_proj transactions
  obtain ⟨hs, _, ha⟩ := chainStep_ok _ rs n prev t h
  simp only [generateDependentDistributions, p₁, p₂, p₃, sampleAt] at hs ha
  obtain ⟨d₁, hd₁, hc₁, _, ho₁⟩ := sample_table_outcome Transaction.recipient
    Transaction.amount Transaction.sender complete_sender_ne transactions _ _ _ (hpos _)
    (henum _ _) _ hs
  obtain ⟨d₃, hd₃, hc₃, hk₃, ho₃⟩ := sample_table_outcome Transaction.sender
    Transaction.recipient Transaction.amount complete_amount_ne transactions _ _ _ (hpos _)
    (henum _ _) _ ha
  have hl : d₃.sender.length = t.sender.length := by
    rw [hlen d₃ hd₃ hc₃, ← ho₁, hlen d₁ hd₁ hc₁]
  rw [outerKey_eq, outerKey_eq] at hk₃
  obtain ⟨e₁, e₂⟩ := append_inj_of_length _ _ _ _ hl hk₃
  have : d₃ = t := by
    cases d₃; cases t
    simp only at e₁ e₂ ho₃
    simp [e₁, e₂, ho₃]
  rw [← this]
  exact ⟨hd₃, hc₃⟩

/-- C18: the chain never invents a transaction: for every dataset in which the senders
and recipients of the complete transactions all have one length, every random source
whose draws are positive (and whose enumerations list the keys of the map they are
given), every transaction after the seed in a completed chain is a complete transaction
of the dataset. -/
theorem chain_never_invents (iterations : Nat) (rs : RandSource)
    (transactions chain : List Transaction) (L : Nat)
    (hlen : ∀ d ∈ transactions, Complete d → d.sender.length = L ∧ d.recipient.length = L)
    (henum : ∀ i m, (rs.keyOrder i m).Perm (mapKeys m)) (hpos : ∀ i, 0 < rs.float64 i)
    (h : generateChain iterations rs transactions = Except.ok chain) :
    ∀ n, 1 ≤ n → n < chain.length →
      ∃ d ∈ transactions, Complete d ∧ chain[n]? = some d := by
  unfold generateChain at h
  cases hseed : seedTransaction rs transactions with
  | error e => rw [hseed] at h; cases h
  | ok seed =>
    rw [hseed] at h
    obtain ⟨h₁, _, h₃⟩ := chainLoop_ok (generateDependentDistributions transactions) rs
      (iterations - 1) 1 [seed] chain rfl h
    intro n hn₁ hn₂
    obtain ⟨prev, t, _, hstep, ht⟩ := h₃ n hn₁ (by omega)
    obtain ⟨hmem, hc⟩ := chainStep_mem transactions rs L
      (fun d hd hcd => (hlen d hd hcd).1) henum hpos n prev t hstep
    exact ⟨t, hmem, hc, ht⟩

/-- C18, on the dataset [(A,B,1), (A,B,1)] with every draw equal to 1/2 and the chain
length 3: the run completes and the transaction at position 1 of the chain is a complete
transaction of the dataset. -/
theorem chain_never_invents_witness :
    generateChain 3 (constSource 0 (1 / 2)) [⟨"A", "B", "1"⟩, ⟨"A", "B", "1"⟩]
      = Except.ok [⟨"A", "B", "1"⟩, ⟨"A", "B", "1"⟩, ⟨"A", "B", "1"⟩] ∧
    ∃ d ∈ [(⟨"A", "B", "1"⟩ : Transaction), ⟨"A", "B", "1"⟩], Complete d ∧
      [(⟨"A", "B", "1"⟩ : Transaction), ⟨"A", "B", "1"⟩, ⟨"A", "B", "1"⟩][1]? = some d :=
  ⟨chain_two, chain_never_invents 3 (constSource 0 (1 / 2)) _ _ 1 (by decide)
    (fun _ _ => List.Perm.refl _) (fun _ => by norm_num [constSource]) chain_two 1
    (by decide) (by decide)⟩

/-! ## The end-to-end example -/

theorem tables_four :
    generateDependentDistributions
        [⟨"A", "B", "10"⟩, ⟨"B", "C", "10"⟩, ⟨"C", "A", "20"⟩, ⟨"D", "E", "5"⟩]
      = ⟨[("A10", [("B", 1)]), ("B10", [("C", 1)]), ("C20", [("A", 1)]), ("D5", [("E", 1)])],
         [("B10", [("A", 1)]), ("C10", [("B", 1)]), ("A20", [("C", 1)]), ("E5", [("D", 1)])],
         [("AB", [("10", 1)]), ("BC", [("10", 1)]), ("CA", [("20", 1)]),
           ("DE", [("5", 1)])]⟩ := by
  simp [generateDependentDistributions, countAll, countTransaction, incrementOrCreateCount,
    outerKey, String.join, mapGet, mapSet, countsToProbabilities, innerProbabilities, innerTotal]

theorem step_four_half :
    chainStep (generateDependentDistributions
        [⟨"A", "B", "10"⟩, ⟨"B", "C", "10"⟩, ⟨"C", "A", "20"⟩, ⟨"D", "E", "5"⟩])
      (zeroAt 5) 1 ⟨"A", "B", "10"⟩ = Except.ok ⟨"A", "B", "10"⟩ := by
  rw [tables_four]
  exact chainStep_eq_ok _ _ 1 _ "A" "B" "10" (sample_single "A" (by decide))
    (sample_single "B" (by decide)) (sample_single "10" (by decide))

theorem step_four_zero :
    chainStep (generateDependentDistributions
        [⟨"A", "B", "10"⟩, ⟨"B", "C", "10"⟩, ⟨"C", "A", "20"⟩, ⟨"D", "E", "5"⟩])
      (zeroAt 5) 2 ⟨"A", "B", "10"⟩ = Except.ok ⟨"A", "B", ""⟩ := by
  rw [tables_four]
  exact chainStep_eq_ok _ _ 2 _ "A" "B" "" (sample_single "A" (by decide))
    (sample_single "B" (by decide))
    (sample_zero [("10", 1)] ["10"] (List.Perm.refl _) (by decide) (by simp))

theorem chain_four :
    generateChain 3 (zeroAt 5)
        [⟨"A", "B", "10"⟩, ⟨"B", "C", "10"⟩, ⟨"C", "A", "20"⟩, ⟨"D", "E", "5"⟩]
      = Except.ok [⟨"A", "B", "10"⟩, ⟨"A", "B", "10"⟩, ⟨"A", "B", ""⟩] := by
  have hseed : seedTransaction (zeroAt 5)
      [⟨"A", "B", "10"⟩, ⟨"B", "C", "10"⟩, ⟨"C", "A", "20"⟩, ⟨"D", "E", "5"⟩]
      = Except.ok ⟨"A", "B", "10"⟩ := by rfl
  simp only [generateChain, hseed, chainLoop, step_four_half, step_four_zero,
    List.getElem?_cons_zero, List.getElem?_cons_succ, List.cons_append, List.nil_append,
    Nat.sub_self, Nat.add_sub_cancel, Nat.reduceSub, Nat.reduceAdd, List.getElem?_eq_getElem,
    List.length_cons, List.length_nil, Nat.lt_add_one, List.getElem_cons_zero,
    List.getElem_cons_succ, Nat.one_lt_ofNat]

/-- C11, the code on the dataset [(A,B,10), (B,C,10), (C,A,20), (D,E,5)]: the filtered list
is the first three transactions, as claimed; but for the seed index 0 and the draws
1/2, 1/2, 1/2, 1/2, 1/2, 0, all in [0, 1), the chain of length 3 completes with the third
transaction (A, B, ""), whose amount, the empty string, is not an amount of the first
three transactions. -/
theorem chain_empty_amount :
    findLargestConnectedSubgraph
        [⟨"A", "B", "10"⟩, ⟨"B", "C", "10"⟩, ⟨"C", "A", "20"⟩, ⟨"D", "E", "5"⟩]
      = [⟨"A", "B", "10"⟩, ⟨"B", "C", "10"⟩, ⟨"C", "A", "20"⟩] ∧
    (∀ i, 0 ≤ (zeroAt 5).float64 i ∧ (zeroAt 5).float64 i < 1) ∧
    generateChain 3 (zeroAt 5)
        [⟨"A", "B", "10"⟩, ⟨"B", "C", "10"⟩, ⟨"C", "A", "20"⟩, ⟨"D", "E", "5"⟩]
      = Except.ok [⟨"A", "B", "10"⟩, ⟨"A", "B", "10"⟩, ⟨"A", "B", ""⟩] ∧
    ("" : String) ∉ ["10", "10", "20"] := by
  refine ⟨by decide, ?_, chain_four, by decide⟩
  intro i
  by_cases h : i = 5
  · simp only [zeroAt, h, if_true]
    norm_num
  · simp only [zeroAt, h, if_false]
    norm_num

/-! ## The choice of the largest class -/

theorem inNodes_mapSet_self (nodes : GoMap Bool) (a : String) :
    inNodes (mapSet nodes a true) a = true := by
  simp [inNodes, mapGet_mapSet_self]

theorem inNodes_mapSet_ne (nodes : GoMap Bool) (a b : String) (h : b ≠ a) :
    inNodes (mapSet nodes a true) b = inNodes nodes b := by
  simp [inNodes, mapGet_mapSet_ne _ _ _ _ h]

theorem collect_foldl (i : Nat) (l : GoMap Nat) :
    ∀ acc : GoMap Bool × Nat,
      (l.foldl (fun acc entry =>
          if entry.2 = i then (mapSet acc.1 entry.1 true, acc.2 + 1) else acc) acc).2
        = acc.2 + (l.filter (fun e => decide (e.2 = i))).length ∧
      ∀ a, inNodes (l.foldl (fun acc entry =>
          if entry.2 = i then (mapSet acc.1 entry.1 true, acc.2 + 1) else acc) acc).1 a = true
        ↔ (inNodes acc.1 a = true ∨ (a, i) ∈ l) := by
  induction l with
  | nil => intro acc; simp
  | cons e rest ih =>
    intro acc
    obtain ⟨k, v⟩ := e
    by_cases hv : v = i
    · subst hv
      obtain ⟨h₁, h₂⟩ := ih (mapSet acc.1 k true, acc.2 + 1)
      simp only [List.foldl_cons, if_true, List.filter_cons, decide_True, List.length_cons]
      refine ⟨by rw [h₁]; omega, ?_⟩
      intro a
      rw [h₂ a]
      by_cases ha : a = k
      · subst ha
        simp [inNodes_mapSet_self]
      · simp [inNodes_mapSet_ne _ _ _ ha, ha]
    · obtain ⟨h₁, h₂⟩ := ih acc
      simp only [List.foldl_cons, hv, if_false, List.filter_cons, decide_False]
      refine ⟨h₁, ?_⟩
      intro a
      rw [h₂ a]
      have : (a, i) ≠ (k, v) := by
        intro h
        cases h
        exact hv rfl
      simp [this]

theorem collectNodes_size (graphs : GoMap Nat) (i : Nat) :
    (collectNodes graphs i).2 = memberCount graphs i := by
  have := (collect_foldl i graphs ([], 0)).1
  simpa [collectNodes, memberCount] using this

theorem inNodes_collectNodes (graphs : GoMap Nat) (i : Nat) (a : String) :
    inNodes (collectNodes graphs i).1 a = true ↔ (a, i) ∈ graphs := by
  have := (collect_foldl i graphs ([], 0)).2 a
  simpa [collectNodes, inNodes, mapGet] using this

theorem mem_iff_graphOf (graphs : GoMap Nat) (hnd : (mapKeys graphs).Nodup) (a : String)
    (i : Nat) (hi : i ≠ 0) : (a, i) ∈ graphs ↔ graphOf graphs a = i := by
  constructor
  · intro h
    simp [graphOf, mapGet_of_mem graphs a i hnd h]
  · intro h
    have hne : graphOf graphs a ≠ 0 := by rw [h]; exact hi
    have := graphOf_mem graphs a hne
    rwa [h] at this

theorem selectUpTo_succ (st : Labelling) (n : Nat) :
    selectUpTo st (n + 1)
      = if (collectNodes st.graphs (n + 1)).2 > (selectUpTo st n).2
        then collectNodes st.graphs (n + 1) else selectUpTo st n := by
  simp only [selectUpTo, List.range'_1_concat, List.foldl_append, List.foldl_cons,
    List.foldl_nil, Nat.add_comm 1 n]

/-- The result of the loop over the ids `1, ..., n`: nothing when none of them has a
member, and otherwise the nodes of the first id with the most members. -/
theorem selectUpTo_spec (st : Labelling) (n : Nat) :
    (selectUpTo st n = ([], 0) ∧ ∀ i, 1 ≤ i → i ≤ n → memberCount st.graphs i = 0) ∨
    ∃ w, 1 ≤ w ∧ w ≤ n ∧ selectUpTo st n = collectNodes st.graphs w ∧
      0 < memberCount st.graphs w ∧
      (∀ i, 1 ≤ i → i ≤ n → memberCount st.graphs i ≤ memberCount st.graphs w) ∧
      (∀ i, 1 ≤ i → i < w → memberCount st.graphs i < memberCount st.graphs w) := by
  induction n with
  | zero =>
    left
    exact ⟨rfl, fun i h₁ h₂ => by omega⟩
  | succ n ih =>
    rw [selectUpTo_succ, collectNodes_size]
    rcases ih with ⟨hnil, hzero⟩ | ⟨w, hw₁, hw₂, hsel, hpos, hmax, hfirst⟩
    · rw [hnil]
      by_cases hgt : memberCount st.graphs (n + 1) > 0
      · right
        simp only [hgt, if_true]
        refine ⟨n + 1, by omega, Nat.le_refl _, rfl, hgt, ?_, ?_⟩
        · intro i hi₁ hi₂
          by_cases hi : i = n + 1
          · rw [hi]
          · rw [hzero i hi₁ (by omega)]; exact Nat.zero_le _
        · intro i hi₁ hi₂
          rw [hzero i hi₁ (by omega)]; exact hgt
      · left
        rw [if_neg hgt]
        refine ⟨rfl, ?_⟩
        intro i hi₁ hi₂
        by_cases hi : i = n + 1
        · rw [hi]; omega
        · exact hzero i hi₁ (by omega)
    · right
      have hsize : (selectUpTo st n).2 = memberCount st.graphs w := by
        rw [hsel, collectNodes_size]
      rw [hsize]
      by_cases hgt : memberCount st.graphs (n + 1) > memberCount st.graphs w
      · simp only [hgt, if_true]
        refine ⟨n + 1, by omega, Nat.le_refl _, rfl, by omega, ?_, ?_⟩
        · intro i hi₁ hi₂
          by_cases hi : i = n + 1
          · rw [hi]
          · have := hmax i hi₁ (by omega); omega
        · intro i hi₁ hi₂
          have := hmax i hi₁ (by omega); omega
      · simp only [hgt, if_false]
        refine ⟨w, hw₁, by omega, hsel, hpos, ?_, hfirst⟩
        intro i hi₁ hi₂
        by_cases hi : i = n + 1
        · rw [hi]; omega
        · exact hmax i hi₁ (by omega)

/-! ## The labelling of a dataset -/

theorem nodup_labelStep (st : Labelling) (t : Transaction) (h : (mapKeys st.graphs).Nodup) :
    (mapKeys (labelStep st t).graphs).Nodup := by
  unfold labelStep
  split
  · exact nodup_mapKeys_mapSet _ _ _ h
  · split
    · exact nodup_mapKeys_mapSet _ _ _ h
    · split
      · exact nodup_mapKeys_mapSet _ _ _ (nodup_mapKeys_mapSet _ _ _ h)
      · exact h

theorem nodup_foldl_labelStep (transactions : List Transaction) :
    ∀ st : Labelling, (mapKeys st.graphs).Nodup →
      (mapKeys (transactions.foldl labelStep st).graphs).Nodup := by
  induction transactions with
  | nil => intro st h; exact h
  | cons t rest ih => intro st h; exact ih _ (nodup_labelStep st t h)

theorem nodup_labelAll (transactions : List Transaction) :
    (mapKeys (labelAll transactions).graphs).Nodup :=
  nodup_foldl_labelStep transactions _ List.nodup_nil

theorem mem_labelStep (st : Labelling) (t : Transaction) (e : String × Nat)
    (h : e ∈ (labelStep st t).graphs) :
    e ∈ st.graphs ∨ e.1 = t.sender ∨ e.1 = t.recipient := by
  unfold labelStep at h
  split at h
  · rcases mem_mapSet _ _ _ e h with heq | hmem
    · rw [heq]; exact Or.inr (Or.inr rfl)
    · exact Or.inl hmem
  · split at h
    · rcases mem_mapSet _ _ _ e h with heq | hmem
      · rw [heq]; exact Or.inr (Or.inl rfl)
      · exact Or.inl hmem
    · split at h
      · rcases mem_mapSet _ _ _ e h with heq | hmem
        · rw [heq]; exact Or.inr (Or.inr rfl)
        · rcases mem_mapSet _ _ _ e hmem with heq | hmem'
          · rw [heq]; exact Or.inr (Or.inl rfl)
          · exact Or.inl hmem'
      · exact Or.inl h

theorem mem_foldl_labelStep (transactions : List Transaction) :
    ∀ (st : Labelling) (e : String × Nat), e ∈ (transactions.foldl labelStep st).graphs →
      e ∈ st.graphs ∨ ∃ t ∈ transactions, t.sender = e.1 ∨ t.recipient = e.1 := by
  induction transactions with
  | nil => intro st e h; exact Or.inl h
  | cons t rest ih =>
    intro st e h
    rcases ih (labelStep st t) e h with h' | ⟨t', ht', he⟩
    · rcases mem_labelStep st t e h' with h₁ | h₂ | h₃
      · exact Or.inl h₁
      · exact Or.inr ⟨t, List.mem_cons_self _ _, Or.inl h₂.symm⟩
      · exact Or.inr ⟨t, List.mem_cons_self _ _, Or.inr h₃.symm⟩
    · exact Or.inr ⟨t', List.mem_cons_of_mem _ ht', he⟩

theorem graphs_ne_nil_labelStep (st : Labelling) (t : Transaction) (h : st.graphs ≠ []) :
    (labelStep st t).graphs ≠ [] := by
  unfold labelStep
  split
  · exact mapSet_ne_nil _ _ _
  · split
    · exact mapSet_ne_nil _ _ _
    · split
      · exact mapSet_ne_nil _ _ _
      · exact h

theorem graphs_ne_nil_foldl (transactions : List Transaction) :
    ∀ st : Labelling, st.graphs ≠ [] → (transactions.foldl labelStep st).graphs ≠ [] := by
  induction transactions with
  | nil => intro st h; exact h
  | cons t rest ih => intro st h; exact ih _ (graphs_ne_nil_labelStep st t h)

theorem graphs_ne_nil_labelAll (transactions : List Transaction) (h : transactions ≠ []) :
    (labelAll transactions).graphs ≠ [] := by
  cases transactions with
  | nil => exact absurd rfl h
  | cons t rest =>
    show (rest.foldl labelStep (labelStep ⟨[], 1⟩ t)).graphs ≠ []
    apply graphs_ne_nil_foldl
    have : labelStep ⟨[], 1⟩ t
        = { graphs := mapSet (mapSet [] t.sender 1) t.recipient 1, nextGraph := 1 + 1 } :=
      labelStep_neither ⟨[], 1⟩ t rfl rfl
    rw [this]
    exact mapSet_ne_nil _ _ _

theorem memberCount_pos_of_mem (graphs : GoMap Nat) (a : String) (i : Nat)
    (h : (a, i) ∈ graphs) : 0 < memberCount graphs i := by
  unfold memberCount
  rw [List.length_pos_iff_exists_mem]
  exact ⟨(a, i), List.mem_filter.2 ⟨h, by simp⟩⟩

theorem exists_mem_of_memberCount_pos (graphs : GoMap Nat) (i : Nat)
    (h : 0 < memberCount graphs i) : ∃ a, (a, i) ∈ graphs := by
  unfold memberCount at h
  obtain ⟨e, he⟩ := List.length_pos_iff_exists_mem.1 h
  rw [List.mem_filter] at he
  obtain ⟨k, v⟩ := e
  have hv : v = i := by simpa using he.2
  subst hv
  exact ⟨k, he.1⟩

theorem selectLargest_eq (st : Labelling) :
    selectLargest st = selectUpTo st (st.nextGraph - 1) := rfl

/-- On a dataset that is not empty, the loop over the ids keeps the nodes of a winner,
and the function returns the transactions with an endpoint of that id. -/
theorem findLargest_winner (transactions : List Transaction) (hne : transactions ≠ []) :
    ∃ w, IsWinner (labelAll transactions) w ∧
      findLargestConnectedSubgraph transactions
        = transactions.filter (fun t =>
            decide (graphOf (labelAll transactions).graphs t.sender = w ∨
              graphOf (labelAll transactions).graphs t.recipient = w)) := by
  have hinv := labelInv_labelAll transactions
  have hnd := nodup_labelAll transactions
  obtain ⟨e, he⟩ := List.exists_mem_of_ne_nil _ (graphs_ne_nil_labelAll transactions hne)
  have hrange := hinv.2 e he
  rcases selectUpTo_spec (labelAll transactions) ((labelAll transactions).nextGraph - 1) with
    ⟨_, hzero⟩ | ⟨w, hw₁, hw₂, hsel, hpos, hmax, hfirst⟩
  · have h0 := hzero e.2 hrange.1 (by omega)
    have := memberCount_pos_of_mem (labelAll transactions).graphs e.1 e.2 he
    omega
  · refine ⟨w, ⟨hw₁, by omega, hpos, fun i h₁ h₂ => hmax i h₁ (by omega), hfirst⟩, ?_⟩
    unfold findLargestConnectedSubgraph
    simp only [selectLargest_eq, hsel]
    apply List.filter_congr
    intro t _
    have hs := inNodes_collectNodes (labelAll transactions).graphs w t.sender
    have hr := inNodes_collectNodes (labelAll transactions).graphs w t.recipient
    rw [mem_iff_graphOf _ hnd _ _ (by omega)] at hs hr
    by_cases h₁ : graphOf (labelAll transactions).graphs t.sender = w
    · simp [hs.2 h₁, h₁]
    · by_cases h₂ : graphOf (labelAll transactions).graphs t.recipient = w
      · simp [hr.2 h₂, h₂]
      · have hs' : inNodes (collectNodes (labelAll transactions).graphs w).1 t.sender = false := by
          cases hb : inNodes (collectNodes (labelAll transactions).graphs w).1 t.sender with
          | false => rfl
          | true => exact absurd (hs.1 hb) h₁
        have hr' : inNodes (collectNodes (labelAll transactions).graphs w).1 t.recipient
            = false := by
          cases hb : inNodes (collectNodes (labelAll transactions).graphs w).1 t.recipient with
          | false => rfl
          | true => exact absurd (hr.1 hb) h₂
        simp [hs', hr', h₁, h₂]

/-- C14: given the labelling produced by the single pass, `findLargestConnectedSubgraph`
returns the transactions of the dataset, in their order and with their multiplicity,
whose sender or recipient holds the winning id, the smallest id in `1 .. nextGraph - 1`
whose number of member addresses is maximal; for the empty dataset the result is empty. -/
theorem findLargestConnectedSubgraph_filter (transactions : List Transaction) :
    findLargestConnectedSubgraph [] = [] ∧
    (transactions ≠ [] →
      ∃ w, IsWinner (labelAll transactions) w ∧
        findLargestConnectedSubgraph transactions
          = transactions.filter (fun t =>
              decide (graphOf (labelAll transactions).graphs t.sender = w ∨
                graphOf (labelAll transactions).graphs t.recipient = w))) :=
  ⟨rfl, findLargest_winner transactions⟩

/-- C14, on the dataset [(A,B), (B,C), (D,E)]: a winner exists and the result is the
filter of the dataset by the addresses of its id; the result is [(A,B), (B,C)]. -/
theorem findLargestConnectedSubgraph_filter_witness :
    (∃ w, IsWinner (labelAll [⟨"A", "B", "1"⟩, ⟨"B", "C", "1"⟩, ⟨"D", "E", "1"⟩]) w ∧
      findLargestConnectedSubgraph [⟨"A", "B", "1"⟩, ⟨"B", "C", "1"⟩, ⟨"D", "E", "1"⟩]
        = [⟨"A", "B", "1"⟩, ⟨"B", "C", "1"⟩, ⟨"D", "E", "1"⟩].filter (fun t =>
            decide
              (graphOf (labelAll [⟨"A", "B", "1"⟩, ⟨"B", "C", "1"⟩, ⟨"D", "E", "1"⟩]).graphs
                  t.sender = w ∨
                graphOf (labelAll [⟨"A", "B", "1"⟩, ⟨"B", "C", "1"⟩, ⟨"D", "E", "1"⟩]).graphs
                  t.recipient = w))) ∧
    findLargestConnectedSubgraph [⟨"A", "B", "1"⟩, ⟨"B", "C", "1"⟩, ⟨"D", "E", "1"⟩]
      = [⟨"A", "B", "1"⟩, ⟨"B", "C", "1"⟩] :=
  ⟨(findLargestConnectedSubgraph_filter
      [⟨"A", "B", "1"⟩, ⟨"B", "C", "1"⟩, ⟨"D", "E", "1"⟩]).2 (by simp), by decide⟩

/-- C19: for every dataset that is not empty, `findLargestConnectedSubgraph` returns a list
that is not empty, and every transaction it returns is an element of the dataset. -/
theorem findLargestConnectedSubgraph_nonempty (transactions : List Transaction)
    (hne : transactions ≠ []) :
    findLargestConnectedSubgraph transactions ≠ [] ∧
    ∀ t ∈ findLargestConnectedSubgraph transactions, t ∈ transactions := by
  obtain ⟨w, hw, hres⟩ := findLargest_winner transactions hne
  constructor
  · obtain ⟨a, ha⟩ := exists_mem_of_memberCount_pos _ w hw.2.2.1
    have hga : graphOf (labelAll transactions).graphs a = w :=
      (mem_iff_graphOf _ (nodup_labelAll transactions) a w (by have := hw.1; omega)).1 ha
    rcases mem_foldl_labelStep transactions ⟨[], 1⟩ (a, w) ha with h | ⟨t, ht, hend⟩
    · simp at h
    · intro hnil
      have hmem : t ∈ findLargestConnectedSubgraph transactions := by
        rw [hres, List.mem_filter]
        refine ⟨ht, ?_⟩
        rcases hend with h | h
        · simp only at h
          simp [h, hga]
        · simp only at h
          simp [h, hga]
      rw [hnil] at hmem
      simp at hmem
  · intro t ht
    rw [hres] at ht
    exact (List.mem_filter.1 ht).1

/-- C19, on the dataset [("", "", "")], whose fields are all empty: the result is not
empty. -/
theorem findLargestConnectedSubgraph_nonempty_witness :
    [(⟨"", "", ""⟩ : Transaction)] ≠ [] ∧
    findLargestConnectedSubgraph [⟨"", "", ""⟩] ≠ [] :=
  ⟨by simp, (findLargestConnectedSubgraph_nonempty [⟨"", "", ""⟩] (by simp)).1⟩

/-! ## The sampler over an arithmetic -/

/-- The sampler on the rationals is the sampler over the exact arithmetic. -/
theorem sample_eq_sampleIn (p : GoMap ℚ) (order : List String) (u : ℚ) :
    sample p order u = sampleIn ratArith p order u := rfl

theorem firstReaching_eq_firstReachingIn (p : GoMap ℚ) (u : ℚ) (keys : List String) :
    ∀ sum : ℚ, firstReaching p u keys sum = firstReachingIn ratArith p u keys sum := by
  induction keys with
  | nil => intro sum; rfl
  | cons key rest ih =>
    intro sum
    simp only [firstReaching, firstReachingIn, ih]
    simp [ratArith, probOfIn, probOf]

theorem cumFromIn_cons {F : Type} (A : Arith F) (p : GoMap F) (acc : GoMap F × F)
    (key : String) (rest : List String) :
    cumFromIn A p acc (key :: rest)
      = cumFromIn A p
        (mapSet acc.1 key (A.add acc.2 (probOfIn A p key)), A.add acc.2 (probOfIn A p key))
        rest := rfl

theorem cumFromIn_append {F : Type} (A : Arith F) (p : GoMap F) (acc : GoMap F × F)
    (ks ks' : List String) :
    cumFromIn A p acc (ks ++ ks') = cumFromIn A p (cumFromIn A p acc ks) ks' := by
  simp [cumFromIn, List.foldl_append]

theorem probOfIn_mapSet_self {F : Type} (A : Arith F) (m : GoMap F) (k : String) (v : F) :
    probOfIn A (mapSet m k v) k = v := by
  simp [probOfIn, mapGet_mapSet_self]

theorem probOfIn_mapSet_ne {F : Type} (A : Arith F) (m : GoMap F) (k k' : String) (v : F)
    (h : k' ≠ k) : probOfIn A (mapSet m k v) k' = probOfIn A m k' := by
  simp [probOfIn, mapGet_mapSet_ne _ _ _ _ h]

theorem probOfIn_cumFromIn_of_not_mem {F : Type} (A : Arith F) (p : GoMap F)
    (keys : List String) (k : String) (h : k ∉ keys) :
    ∀ acc, probOfIn A (cumFromIn A p acc keys).1 k = probOfIn A acc.1 k := by
  induction keys with
  | nil => intro acc; rfl
  | cons key rest ih =>
    intro acc
    simp only [List.mem_cons, not_or] at h
    rw [cumFromIn_cons, ih h.2]
    exact probOfIn_mapSet_ne A _ _ _ _ h.1

theorem cumFromIn_replicate {F : Type} (A : Arith F) (h00 : A.add A.zero A.zero = A.zero)
    (p : GoMap F) (h0 : probOfIn A p "" = A.zero) (n : Nat) :
    ∀ acc : GoMap F × F, acc.2 = A.zero → probOfIn A acc.1 "" = A.zero →
      (cumFromIn A p acc (List.replicate n "")).2 = A.zero ∧
      probOfIn A (cumFromIn A p acc (List.replicate n "")).1 "" = A.zero := by
  induction n with
  | zero => intro acc h₁ h₂; exact ⟨h₁, h₂⟩
  | succ n ih =>
    intro acc h₁ h₂
    rw [List.replicate_succ, cumFromIn_cons]
    apply ih
    · simp only [h₁, h0, h00]
    · rw [probOfIn_mapSet_self]
      simp only [h₁, h0, h00]

theorem find?_eq_firstReachingIn {F : Type} (A : Arith F) (p : GoMap F) (u : F)
    (ks : List String) :
    ks.Nodup → ∀ (acc : GoMap F × F) (G : String → F),
      (∀ k ∈ ks, G k = probOfIn A (cumFromIn A p acc ks).1 k) →
      ks.find? (fun key => A.le u (G key)) = firstReachingIn A p u ks acc.2 := by
  induction ks with
  | nil => intro _ acc G _; rfl
  | cons key rest ih =>
    intro hnd acc G hG
    rw [List.nodup_cons] at hnd
    have hkey : G key = A.add acc.2 (probOfIn A p key) := by
      rw [hG key (List.mem_cons_self _ _), cumFromIn_cons,
        probOfIn_cumFromIn_of_not_mem A p rest key hnd.1, probOfIn_mapSet_self]
    have hrest := ih hnd.2
      (mapSet acc.1 key (A.add acc.2 (probOfIn A p key)), A.add acc.2 (probOfIn A p key)) G
      (fun k hk => by rw [hG k (List.mem_cons_of_mem _ hk), cumFromIn_cons])
    cases hu : A.le u (A.add acc.2 (probOfIn A p key)) with
    | true => simp [List.find?, firstReachingIn, hkey, hu]
    | false => simp [List.find?, firstReachingIn, hkey, hu, hrest]

theorem firstReachingIn_mem {F : Type} (A : Arith F) (p : GoMap F) (u : F)
    (ks : List String) :
    ∀ (sum : F) (k : String), firstReachingIn A p u ks sum = some k → k ∈ ks := by
  induction ks with
  | nil => intro sum k h; simp [firstReachingIn] at h
  | cons key rest ih =>
    intro sum k h
    simp only [firstReachingIn] at h
    split at h
    · cases h; exact List.mem_cons_self _ _
    · exact List.mem_cons_of_mem _ (ih _ k h)

theorem probOfIn_empty_key {F : Type} (A : Arith F) (p : GoMap F) (hempty : "" ∉ mapKeys p) :
    probOfIn A p "" = A.zero := by
  simp [probOfIn, (mapGet_eq_none_iff p "").2 hempty]

theorem sampleIn_eq_firstReachingIn {F : Type} (A : Arith F)
    (h00 : A.add A.zero A.zero = A.zero) (p : GoMap F) (order : List String) (u : F)
    (hnd : (mapKeys p).Nodup) (hperm : order.Perm (mapKeys p)) (hempty : "" ∉ mapKeys p)
    (hu : A.le u A.zero = false) :
    sampleIn A p order u = sampleResult (firstReachingIn A p u order A.zero) := by
  have h0 := probOfIn_empty_key A p hempty
  have hord : order.Nodup := hperm.nodup_iff.2 hnd
  have hemp : "" ∉ order := fun h => hempty (hperm.mem_iff.1 h)
  obtain ⟨hA₁, hA₂⟩ := cumFromIn_replicate A h00 p h0 p.length ([], A.zero) rfl
    (by simp [probOfIn, mapGet])
  have hfind : ∀ final : GoMap F, final = (cumulateIn A p (sampleKeysIn p order)).1 →
      (sampleKeysIn p order).find? (fun key => A.le u (probOfIn A final key))
        = firstReachingIn A p u order A.zero := by
    intro final hfin
    have hfinal : final
        = (cumFromIn A p (cumFromIn A p ([], A.zero) (List.replicate p.length "")) order).1 := by
      rw [hfin, cumulateIn, sampleKeysIn, cumFromIn_append]
    have hpre : (List.replicate p.length "").find?
        (fun key => A.le u (probOfIn A final key)) = none := by
      rw [List.find?_eq_none]
      intro key hkey
      have : key = "" := (List.mem_replicate.1 hkey).2
      subst this
      rw [hfinal, probOfIn_cumFromIn_of_not_mem A p order "" hemp, hA₂, hu]
      simp
    have hwalk := find?_eq_firstReachingIn A p u order hord
      (cumFromIn A p ([], A.zero) (List.replicate p.length "")) (fun key => probOfIn A final key)
      (fun k _ => by rw [hfinal])
    rw [hA₁] at hwalk
    rw [sampleKeysIn, List.find?_append, hpre, hwalk]
    rfl
  unfold sampleIn
  simp only []
  rw [hfind _ rfl]
  cases firstReachingIn A p u order A.zero <;> rfl

theorem sampleIn_zero {F : Type} (A : Arith F) (h00 : A.add A.zero A.zero = A.zero)
    (hle : A.le A.zero A.zero = true) (p : GoMap F) (order : List String)
    (hperm : order.Perm (mapKeys p)) (hempty : "" ∉ mapKeys p) (hne : p ≠ []) :
    sampleIn A p order A.zero = Except.ok "" := by
  have h0 := probOfIn_empty_key A p hempty
  have hemp : "" ∉ order := fun h => hempty (hperm.mem_iff.1 h)
  obtain ⟨_, hA₂⟩ := cumFromIn_replicate A h00 p h0 p.length ([], A.zero) rfl
    (by simp [probOfIn, mapGet])
  obtain ⟨n, hn⟩ : ∃ n, p.length = n + 1 :=
    Nat.exists_eq_succ_of_ne_zero (fun h => hne (List.length_eq_zero.1 h))
  have hfind : ∀ final : GoMap F, final = (cumulateIn A p (sampleKeysIn p order)).1 →
      (sampleKeysIn p order).find? (fun key => A.le A.zero (probOfIn A final key))
        = some "" := by
    intro final hfin
    have hval : probOfIn A final "" = A.zero := by
      rw [hfin, cumulateIn, sampleKeysIn, cumFromIn_append,
        probOfIn_cumFromIn_of_not_mem A p order "" hemp, hA₂]
    rw [sampleKeysIn, hn, List.replicate_succ, List.cons_append, List.find?_cons]
    simp [hval, hle]
  unfold sampleIn
  simp only []
  rw [hfind _ rfl]

/-- C17: over every arithmetic in which `0.0 + 0.0` is `0.0` and `0.0 <= 0.0` holds, as
in `float64`, for every distribution that does not have the empty string as an outcome,
every enumeration of its keys and every draw `u` that is not `<= 0.0` (a draw `u > 0`),
the empty strings with which `sample` pre-fills its key array are not returned: the
result is the first key, in enumeration order, whose cumulative probability (the running
sum that `sample` computes) reaches `u`, and `log.Fatal` when there is none; for the draw
`0.0` on such a distribution that is not empty, `sample` returns the empty string. -/
theorem sample_prefill {F : Type} (A : Arith F) (h00 : A.add A.zero A.zero = A.zero)
    (hle : A.le A.zero A.zero = true) (p : GoMap F) (order : List String) (u : F)
    (hnd : (mapKeys p).Nodup) (hperm : order.Perm (mapKeys p)) (hempty : "" ∉ mapKeys p) :
    (A.le u A.zero = false →
      sampleIn A p order u = sampleResult (firstReachingIn A p u order A.zero) ∧
      sampleIn A p order u ≠ Except.ok "") ∧
    (p ≠ [] → sampleIn A p order A.zero = Except.ok "") := by
  refine ⟨fun hu => ?_, fun hne => sampleIn_zero A h00 hle p order hperm hempty hne⟩
  have heq := sampleIn_eq_firstReachingIn A h00 p order u hnd hperm hempty hu
  refine ⟨heq, ?_⟩
  intro h
  rw [heq] at h
  cases hf : firstReachingIn A p u order A.zero with
  | none => rw [hf] at h; cases h
  | some key =>
    rw [hf] at h
    cases h
    have hmem := firstReachingIn_mem A p u order A.zero "" hf
    exact hempty (hperm.mem_iff.1 hmem)

/-- C17, in exact arithmetic on the distribution {x: 3/10, y: 7/10} enumerated as [x, y]:
the draw 1/5 is not `<= 0` and does not return the empty string, and the draw 0 does. -/
theorem sample_prefill_witness :
    ratArith.le (1 / 5) ratArith.zero = false ∧
    sampleIn ratArith [("x", 3 / 10), ("y", 7 / 10)] ["x", "y"] (1 / 5) ≠ Except.ok "" ∧
    sampleIn ratArith [("x", 3 / 10), ("y", 7 / 10)] ["x", "y"] ratArith.zero = Except.ok "" :=
  have hu : ratArith.le (1 / 5) ratArith.zero = false := by
    simp only [ratArith, decide_eq_false_iff_not, not_le]
    norm_num
  have h := sample_prefill ratArith (by simp [ratArith]) (by simp [ratArith])
    [("x", 3 / 10), ("y", 7 / 10)] ["x", "y"] (1 / 5) (by decide) (by decide) (by decide)
  ⟨hu, (h.1 hu).2, h.2 (by simp)⟩

end GibbsSampler
